import Mathlib

/-!
# minikin: variation-settings merge (`FontFakery.cpp`)

A shallow embedding of `minikin::merge` from `libs/minikin/FontFakery.cpp` together with the
value types it consumes, followed by theorems about it.

Conventions of the embedding

* `AxisTag` is `uint32_t`; it is embedded as `Nat`.  Well-formed tags are `< 2 ^ 32`; the loop
  sentinel `END` is `0xFFFFFFFF`.
* `float` values are embedded as `FloatVal`: NaN, or a finite value held as an exact rational
  (`ℚ`).
  Comparisons follow IEEE 754: `<`, `<=`, `>=` and `==` are false as soon as one side is NaN, and
  arithmetic on NaN gives NaN.  Infinities and rounding are outside the model.
* Cursor indices and sizes are `Nat` (they never exceed the 16-bit sizes of the containers).
* An unguarded indexed read `vs[i]` is embedded with `List.get?` inside `Option`: reading past the
  end of a sequence makes the iteration (and the whole call) evaluate to `none`.
* The local `bool fakeBold;` is declared without an initialiser; it is embedded as `Option Bool`,
  `none` standing for "never assigned".
-/

namespace minikin

/-! ## Data model -/

/-- `typedef uint32_t AxisTag;`.  The definitions below spell the tag type as `Nat`, so that linear
arithmetic applies to tag comparisons directly. -/
abbrev AxisTag := Nat

/-- The C++ type `float`: NaN, or a finite value. -/
inductive FloatVal where
  | nan : FloatVal
  | val : ℚ → FloatVal
  deriving DecidableEq, Repr

/-- The comparison `a < b` on `float`: false when either side is NaN. -/
def FloatVal.lt (a b : FloatVal) : Prop :=
  match a, b with
  | FloatVal.val p, FloatVal.val q => p < q
  | _, _ => False

/-- The comparison `a <= b` on `float`: false when either side is NaN. -/
def FloatVal.le (a b : FloatVal) : Prop :=
  match a, b with
  | FloatVal.val p, FloatVal.val q => p ≤ q
  | _, _ => False

instance : LT FloatVal := ⟨FloatVal.lt⟩

instance : LE FloatVal := ⟨FloatVal.le⟩

instance FloatVal.decLt (a b : FloatVal) : Decidable (a < b) :=
  match a, b with
  | FloatVal.val p, FloatVal.val q => inferInstanceAs (Decidable (p < q))
  | FloatVal.nan, _ => inferInstanceAs (Decidable False)
  | FloatVal.val _, FloatVal.nan => inferInstanceAs (Decidable False)

instance FloatVal.decLe (a b : FloatVal) : Decidable (a ≤ b) :=
  match a, b with
  | FloatVal.val p, FloatVal.val q => inferInstanceAs (Decidable (p ≤ q))
  | FloatVal.nan, _ => inferInstanceAs (Decidable False)
  | FloatVal.val _, FloatVal.nan => inferInstanceAs (Decidable False)

/-- The comparison `a == b` on `float`: false when either side is NaN. -/
def FloatVal.feq (a b : FloatVal) : Bool :=
  match a, b with
  | FloatVal.val p, FloatVal.val q => decide (p = q)
  | _, _ => false

/-- The difference `a - b` on `float`: NaN when either side is NaN. -/
def FloatVal.sub (a b : FloatVal) : FloatVal :=
  match a, b with
  | FloatVal.val p, FloatVal.val q => FloatVal.val (p - q)
  | _, _ => FloatVal.nan

/-- The negation `-a` on `float`. -/
def FloatVal.neg (a : FloatVal) : FloatVal :=
  match a with
  | FloatVal.val p => FloatVal.val (-p)
  | FloatVal.nan => FloatVal.nan

instance : Sub FloatVal := ⟨FloatVal.sub⟩

instance : Neg FloatVal := ⟨FloatVal.neg⟩

instance (n : Nat) : OfNat FloatVal n := ⟨FloatVal.val n⟩

/-- `static_cast<float>(n)` for an integer `n`. -/
instance : NatCast FloatVal := ⟨fun n => FloatVal.val n⟩

/-- `struct FontVariation { AxisTag axisTag; float value; }` (`FontVariation.h`). -/
structure FontVariation where
  axisTag : Nat
  value : FloatVal
  deriving DecidableEq, Repr

/-- Modelled from the spec: `FVarEntry` (declared in the absent `FVarTable.h`), the per-axis range
record `{minValue, maxValue, defValue}`. -/
structure FVarEntry where
  minValue : FloatVal
  maxValue : FloatVal
  defValue : FloatVal
  deriving DecidableEq, Repr

/-- Modelled from the spec: `FVarTable` (declared in the absent `FVarTable.h`), a mapping from axis
tag to range entry.  `fvar.find(tag)` is application, `none` being `fvar.end()`. -/
abbrev FVarTable := Nat → Option FVarEntry

/-- `fvar.count(tag)` converted to `bool`. -/
def FVarTable.count (fvar : FVarTable) (tag : Nat) : Bool := (fvar tag).isSome

/-- `FontStyle::Slant`. -/
inductive Slant where
  | UPRIGHT
  | ITALIC
  deriving DecidableEq, Repr

/-- Modelled from the spec: `FontStyle` (declared in the absent `FontStyle.h`), an integer weight
(a `uint16_t`) and a slant category. -/
structure FontStyle where
  weight : Nat
  slant : Slant
  deriving DecidableEq, Repr

/-- `FontStyle::isItalic()`. -/
def FontStyle.isItalic (s : FontStyle) : Bool := decide (s.slant = Slant.ITALIC)

/-- `MakeTag(c1, c2, c3, c4)`: the four bytes of the axis name, most significant first. -/
def MakeTag (c1 c2 c3 c4 : Nat) : Nat := c1 * 2 ^ 24 + c2 * 2 ^ 16 + c3 * 2 ^ 8 + c4

/-- `TAG_ital = MakeTag('i', 't', 'a', 'l')`. -/
def TAG_ital : Nat := 0x6974616C
/-- `TAG_slnt = MakeTag('s', 'l', 'n', 't')`. -/
def TAG_slnt : Nat := 0x736C6E74
/-- `TAG_wght = MakeTag('w', 'g', 'h', 't')`. -/
def TAG_wght : Nat := 0x77676874

/-- `constexpr uint32_t END = 0xFFFFFFFF;` -/
def END : Nat := 0xFFFFFFFF

/-- `VariationSettings = SortedPackedVector<FontVariation, 2, uint16_t>`: its contents, in storage
order. -/
abbrev VariationSettings := List FontVariation

/-- Insertion of one variation into a sequence kept ascending by tag; an entry that has the same
tag is replaced. -/
def insertByTag (v : FontVariation) : List FontVariation → List FontVariation
  | [] => [v]
  | x :: xs =>
    if v.axisTag < x.axisTag then v :: x :: xs
    else if v.axisTag = x.axisTag then v :: xs
    else x :: insertByTag v xs

/-- Modelled from the spec: the constructor `VariationSettings(ptr, count)` of the absent
`SortedPackedVector.h`: construction from an explicit sequence with sort and dedup-by-tag applied,
the last value supplied for a tag winning. -/
def VariationSettings.ofBuffer (buf : List FontVariation) : VariationSettings :=
  buf.foldl (fun acc v => insertByTag v acc) []

/-- `FontFakery(fakeBold, fakeItalic, variationSettings)`.  `fakeBold` is `none` when the
constructor is handed the never-assigned local. -/
structure FontFakery where
  fakeBold : Option Bool
  fakeItalic : Bool
  variationSettings : VariationSettings
  deriving DecidableEq, Repr

/-- `std::clamp(v, lo, hi)`: `(v < lo) ? lo : (hi < v) ? hi : v`, with the comparisons of
`float`; a NaN `v` fails both tests and is returned as it is. -/
def clamp (v lo hi : FloatVal) : FloatVal := if v < lo then lo else if hi < v then hi else v

/-! ## `merge` -/

/-- Lines 44-62: the target style converted into at most two variations. -/
def styleVars (fvar : FVarTable) (targetStyle : FontStyle) : List FontVariation :=
  (if fvar.count TAG_slnt then
      (if targetStyle.slant = Slant.ITALIC then [⟨TAG_slnt, -10⟩] else [⟨TAG_slnt, 0⟩])
    else if fvar.count TAG_ital then
      (if targetStyle.slant = Slant.ITALIC then [⟨TAG_ital, 1⟩] else [⟨TAG_ital, 0⟩])
    else [])
  ++ (if fvar.count TAG_wght then [⟨TAG_wght, (targetStyle.weight : FloatVal)⟩] else [])

/-- The guarded tag read `idx < vs.size() ? vs[idx].axisTag : END` (lines 73-75). -/
def tagAt (vs : List FontVariation) (idx : Nat) : Nat :=
  if h : idx < vs.length then (vs.get ⟨idx, h⟩).axisTag else END

/-- The unguarded value read `vs[idx].value`; `none` when `idx` is past the end. -/
def valueAt (vs : List FontVariation) (idx : Nat) : Option FloatVal :=
  (vs.get? idx).map FontVariation.value

/-- The mutable locals of the merge loop (lines 66-71). -/
structure LoopState where
  baseIdx : Nat
  targetIdx : Nat
  styleIdx : Nat
  adjustedVars : List FontVariation
  fakeBold : Option Bool
  deriving DecidableEq, Repr

/-- What the nine-way branch (lines 77-139) selects: the tag, the value, whether the value came
from the style, and the advanced cursors. -/
structure Pick where
  tag : Nat
  value : FloatVal
  styleValueUsed : Bool
  baseIdx : Nat
  targetIdx : Nat
  styleIdx : Nat
  deriving DecidableEq, Repr

/-- Lines 73-139: one pass through the cursor comparison. -/
def pick (baseVS targetVS sv : List FontVariation) (st : LoopState) : Option Pick :=
  let baseTag := tagAt baseVS st.baseIdx
  let targetTag := tagAt targetVS st.targetIdx
  let styleTag := tagAt sv st.styleIdx
  if baseTag < targetTag then
    if styleTag < baseTag then
      (valueAt sv st.styleIdx).map fun value =>
        ⟨styleTag, value, true, st.baseIdx, st.targetIdx, st.styleIdx + 1⟩
    else if styleTag = baseTag then
      (valueAt baseVS st.baseIdx).map fun value =>
        ⟨styleTag, value, false, st.baseIdx + 1, st.targetIdx, st.styleIdx + 1⟩
    else
      (valueAt baseVS st.baseIdx).map fun value =>
        ⟨baseTag, value, false, st.baseIdx + 1, st.targetIdx, st.styleIdx⟩
  else if targetTag < baseTag then
    if styleTag < targetTag then
      (valueAt sv st.styleIdx).map fun value =>
        ⟨styleTag, value, true, st.baseIdx, st.targetIdx, st.styleIdx + 1⟩
    else if styleTag = targetTag then
      (valueAt targetVS st.targetIdx).map fun value =>
        ⟨targetTag, value, false, st.baseIdx, st.targetIdx + 1, st.styleIdx + 1⟩
    else
      (valueAt targetVS st.targetIdx).map fun value =>
        ⟨targetTag, value, false, st.baseIdx, st.targetIdx + 1, st.styleIdx⟩
  else
    if styleTag < baseTag then
      (valueAt sv st.styleIdx).map fun value =>
        ⟨styleTag, value, true, st.baseIdx, st.targetIdx, st.styleIdx + 1⟩
    else if styleTag = baseTag then
      (valueAt targetVS st.targetIdx).map fun value =>
        ⟨targetTag, value, false, st.baseIdx + 1, st.targetIdx + 1, st.styleIdx + 1⟩
    else
      (valueAt targetVS st.targetIdx).map fun value =>
        ⟨targetTag, value, false, st.baseIdx + 1, st.targetIdx + 1, st.styleIdx⟩

/-- Lines 141-156: table lookup, default elision, clamping and the append to `adjustedVars`,
applied to what the branch selected. -/
def emit (fvar : FVarTable) (targetStyle : FontStyle) (p : Pick) (st : LoopState) : LoopState :=
  match fvar p.tag with
  | none => ⟨p.baseIdx, p.targetIdx, p.styleIdx, st.adjustedVars, st.fakeBold⟩
  | some fvarEntry =>
    if p.styleValueUsed = true ∧ FloatVal.feq p.value fvarEntry.defValue = true then
      ⟨p.baseIdx, p.targetIdx, p.styleIdx, st.adjustedVars, st.fakeBold⟩
    else
      let clamped := clamp p.value fvarEntry.minValue fvarEntry.maxValue
      ⟨p.baseIdx, p.targetIdx, p.styleIdx, st.adjustedVars ++ [⟨p.tag, clamped⟩],
        if p.tag = TAG_wght then
          some (decide (targetStyle.weight ≥ 600 ∧ ((targetStyle.weight : FloatVal) - clamped) ≥ 200))
        else st.fakeBold⟩

/-- The body of the `while` loop (lines 73-156). -/
def loopBody (fvar : FVarTable) (baseVS targetVS sv : List FontVariation)
    (targetStyle : FontStyle) (st : LoopState) : Option LoopState :=
  (pick baseVS targetVS sv st).map fun p => emit fvar targetStyle p st

/-- The loop condition of line 72. -/
def loopCond (baseVS targetVS sv : List FontVariation) (st : LoopState) : Bool :=
  decide (st.baseIdx < baseVS.length ∨ st.targetIdx < targetVS.length ∨ st.styleIdx < sv.length)

/-- The `while` loop of lines 72-157, run for at most `fuel` iterations.  `none` when an iteration
reads past the end of a sequence, or when the condition still holds after `fuel` iterations. -/
def mergeLoop (fvar : FVarTable) (baseVS targetVS sv : List FontVariation)
    (targetStyle : FontStyle) : Nat → LoopState → Option LoopState
  | 0, st => if loopCond baseVS targetVS sv st then none else some st
  | fuel + 1, st =>
    if loopCond baseVS targetVS sv st then
      match loopBody fvar baseVS targetVS sv targetStyle st with
      | none => none
      | some st' => mergeLoop fvar baseVS targetVS sv targetStyle fuel st'
    else some st

/-- Lines 66-71: the locals before the first iteration. -/
def initState : LoopState := ⟨0, 0, 0, [], none⟩

/-- Lines 159-164: fake bold when the weight axis is not supported. -/
def finalFakeBold (fvar : FVarTable) (baseStyle targetStyle : FontStyle)
    (fakeBold : Option Bool) : Option Bool :=
  if fvar.count TAG_wght then fakeBold
  else some (decide (targetStyle.weight ≥ 600 ∧
    ((targetStyle.weight : Int) - (baseStyle.weight : Int)) ≥ 200))

/-- Lines 165-173: fake italic. -/
def fakeItalicOf (fvar : FVarTable) (baseStyle targetStyle : FontStyle) : Bool :=
  if targetStyle.isItalic then
    if fvar.count TAG_ital || fvar.count TAG_slnt then false else !baseStyle.isItalic
  else false

/-- The number of loop iterations granted to `merge`: every iteration that completes advances a
cursor, so the loop cannot run longer than the three sequences together. -/
def mergeFuel (fvar : FVarTable) (baseVS targetVS : VariationSettings)
    (targetStyle : FontStyle) : Nat :=
  baseVS.length + targetVS.length + (styleVars fvar targetStyle).length

/-- The locals after the loop of `merge`. -/
def mergeLoopResult (fvar : FVarTable) (baseVS targetVS : VariationSettings)
    (targetStyle : FontStyle) : Option LoopState :=
  mergeLoop fvar baseVS targetVS (styleVars fvar targetStyle) targetStyle
    (mergeFuel fvar baseVS targetVS targetStyle) initState

/-- `FontFakery merge(fvar, baseVS, targetVS, baseStyle, targetStyle)` (lines 26-175). -/
def merge (fvar : FVarTable) (baseVS targetVS : VariationSettings)
    (baseStyle targetStyle : FontStyle) : Option FontFakery :=
  (mergeLoopResult fvar baseVS targetVS targetStyle).map fun st =>
    ⟨finalFakeBold fvar baseStyle targetStyle st.fakeBold,
     fakeItalicOf fvar baseStyle targetStyle,
     VariationSettings.ofBuffer st.adjustedVars⟩

/-! ## Test fixtures (`FontFakeryTest.cpp`) -/

def THIN : FontStyle := ⟨100, Slant.UPRIGHT⟩
def REGULAR : FontStyle := ⟨400, Slant.UPRIGHT⟩
def MEDIUM : FontStyle := ⟨500, Slant.UPRIGHT⟩
def BOLD : FontStyle := ⟨700, Slant.UPRIGHT⟩
def BLACK : FontStyle := ⟨900, Slant.UPRIGHT⟩
def ITALIC : FontStyle := ⟨400, Slant.ITALIC⟩
def BOLD_ITALIC : FontStyle := ⟨700, Slant.ITALIC⟩

/-- `MakeTag('A', 'B', 'C', 'D')`. -/
def TAG_ABCD : Nat := 0x41424344
/-- `MakeTag('E', 'F', 'G', 'H')`. -/
def TAG_EFGH : Nat := 0x45464748

/-- A table built from a brace list of `(tag, entry)` pairs. -/
def tableOf (entries : List (Nat × FVarEntry)) : FVarTable := fun tag => entries.lookup tag

/-- `{{ABCD, {0, 100, 50}}}`. -/
def fvarABCD : FVarTable := tableOf [(TAG_ABCD, ⟨0, 100, 50⟩)]
/-- `{{wght, {100, 900, 400}}, {ital, {0, 1, 0}}}`. -/
def fvarWghtItal : FVarTable := tableOf [(TAG_wght, ⟨100, 900, 400⟩), (TAG_ital, ⟨0, 1, 0⟩)]
/-- `{{wght, {100, 900, 400}}, {slnt, {-10, 0, 0}}}`. -/
def fvarWghtSlnt : FVarTable := tableOf [(TAG_wght, ⟨100, 900, 400⟩), (TAG_slnt, ⟨-10, 0, 0⟩)]
/-- `{{wght, {100, 900, 400}}, {slnt, {-10, 0, 0}}, {ABCD, {0, 100, 50}}}`. -/
def fvarComplex : FVarTable :=
  tableOf [(TAG_wght, ⟨100, 900, 400⟩), (TAG_slnt, ⟨-10, 0, 0⟩), (TAG_ABCD, ⟨0, 100, 50⟩)]
/-- The empty table `{}`. -/
def fvarEmpty : FVarTable := tableOf []
/-- `{{wght, {100, 900, 400}}, {slnt, {-10, 0, 0}}, {ital, {0, 1, 0}}}`: both italic axes. -/
def fvarSlntItal : FVarTable :=
  tableOf [(TAG_wght, ⟨100, 900, 400⟩), (TAG_slnt, ⟨-10, 0, 0⟩), (TAG_ital, ⟨0, 1, 0⟩)]

/-- `"'wght' 650"`. -/
def vsWght650 : VariationSettings := [⟨TAG_wght, 650⟩]
/-- `"'wght' 750, 'ABCD' 75"`, as the container stores it. -/
def vsABCD75Wght750 : VariationSettings := [⟨TAG_ABCD, 75⟩, ⟨TAG_wght, 750⟩]
/-- `"'ABCD' 0"`. -/
def vsABCD0 : VariationSettings := [⟨TAG_ABCD, 0⟩]
/-- `"'ABCD' 50"`. -/
def vsABCD50 : VariationSettings := [⟨TAG_ABCD, 50⟩]
/-- `"'ABCD' 100"`. -/
def vsABCD100 : VariationSettings := [⟨TAG_ABCD, 100⟩]
/-- `"'ABCD' 150"`: a value above the range of the test table. -/
def vsABCD150 : VariationSettings := [⟨TAG_ABCD, 150⟩]
/-- `"'ital' 1"`. -/
def vsItal1 : VariationSettings := [⟨TAG_ital, 1⟩]
/-- A set that holds a NaN value for `ABCD`, as in `VariationSettings({FontVariation(ABCD, NAN)})`. -/
def vsABCDNaN : VariationSettings := [⟨TAG_ABCD, FloatVal.nan⟩]

/-! ## The declarative description of the merged settings -/

/-- The value a variation sequence holds for `tag`, if it has the tag. -/
def lookupVar (vs : List FontVariation) (tag : Nat) : Option FloatVal :=
  (vs.find? fun v => decide (v.axisTag = tag)).map FontVariation.value

/-- The tags of base, target and the style-implied list, ascending and without repetition. -/
def specTags (baseVS targetVS sv : List FontVariation) : List Nat :=
  (((baseVS ++ targetVS ++ sv).map FontVariation.axisTag).dedup).insertionSort (· ≤ ·)

/-- The value chosen for `tag` and whether it is style-implied: the target's value if target has
the tag, else the base's value if base has it, else the style-implied value. -/
def specChoice (baseVS targetVS sv : List FontVariation) (tag : Nat) : Option (FloatVal × Bool) :=
  match lookupVar targetVS tag with
  | some v => some (v, false)
  | none =>
    match lookupVar baseVS tag with
    | some v => some (v, false)
    | none => (lookupVar sv tag).map fun v => (v, true)

/-- The filter applied to a chosen value: dropped when the table has no entry for the tag, or when
the value is style-implied and equals the entry's default (equality of `float`s); otherwise
clamped into `[min, max]`. -/
def specFilter (fvar : FVarTable) (tag : Nat) (choice : FloatVal × Bool) : Option FontVariation :=
  match fvar tag with
  | none => none
  | some e =>
    if choice.2 = true ∧ FloatVal.feq choice.1 e.defValue = true then none
    else some ⟨tag, clamp choice.1 e.minValue e.maxValue⟩

/-- The entry emitted for `tag`, if any. -/
def specEntry (fvar : FVarTable) (baseVS targetVS sv : List FontVariation) (tag : Nat) :
    Option FontVariation :=
  (specChoice baseVS targetVS sv tag).bind (specFilter fvar tag)

/-- The merged settings over three given sequences, built declaratively. -/
def specOut (fvar : FVarTable) (baseVS targetVS sv : List FontVariation) : List FontVariation :=
  (specTags baseVS targetVS sv).filterMap (specEntry fvar baseVS targetVS sv)

/-- The merged variation settings, built declaratively. -/
def specMerge (fvar : FVarTable) (baseVS targetVS : VariationSettings)
    (targetStyle : FontStyle) : VariationSettings :=
  specOut fvar baseVS targetVS (styleVars fvar targetStyle)

/-- A valid variation set: strictly ascending by tag, every tag below the sentinel. -/
def ValidVS (vs : List FontVariation) : Prop :=
  (vs.map FontVariation.axisTag).Sorted (· < ·) ∧ ∀ v ∈ vs, v.axisTag < END

instance (vs : List FontVariation) : Decidable (ValidVS vs) :=
  inferInstanceAs (Decidable
    ((vs.map FontVariation.axisTag).Sorted (· < ·) ∧ ∀ v ∈ vs, v.axisTag < END))

/-- Every tag of the sequence differs from the sentinel. -/
def NoSentinel (vs : List FontVariation) : Prop := ∀ v ∈ vs, v.axisTag < END

instance (vs : List FontVariation) : Decidable (NoSentinel vs) :=
  inferInstanceAs (Decidable (∀ v ∈ vs, v.axisTag < END))

/-! ## Support definitions for the proofs -/

/-- The tag under a cursor, seen on the remaining suffix. -/
def headTag : List FontVariation → Nat
  | [] => END
  | x :: _ => x.axisTag

/-- The remaining suffix after a cursor whose tag is `m` has been advanced. -/
def advance (m : Nat) (l : List FontVariation) : List FontVariation :=
  if headTag l = m then l.tail else l

/-- The smallest tag under the three cursors. -/
def minTag (B T S : List FontVariation) : Nat := min (headTag B) (min (headTag T) (headTag S))

/-- The number of elements the three cursors have not passed yet. -/
def remaining (baseVS targetVS sv : List FontVariation) (st : LoopState) : Nat :=
  (baseVS.length - st.baseIdx) + (targetVS.length - st.targetIdx) + (sv.length - st.styleIdx)

/-- The fake-bold decision of line 155 for a clamped weight. -/
def boldRule (targetStyle : FontStyle) (clamped : FloatVal) : Bool :=
  decide (targetStyle.weight ≥ 600 ∧ ((targetStyle.weight : FloatVal) - clamped) ≥ 200)

/-- The value of the local `fakeBold` after the entries `out` have been appended. -/
def foldBold (targetStyle : FontStyle) (init : Option Bool) (out : List FontVariation) :
    Option Bool :=
  out.foldl (fun fb x => if x.axisTag = TAG_wght then some (boldRule targetStyle x.value) else fb)
    init

/-! ## Further definitions from the sources -/

/-- `operator==` on `FontVariation` (`FontVariation.h`, lines 36-38). -/
def FontVariation.operatorEq (l r : FontVariation) : Bool :=
  decide (l.axisTag = r.axisTag) && FloatVal.feq l.value r.value

/-- `operator!=` on `FontVariation` (lines 40-42). -/
def FontVariation.operatorNe (l r : FontVariation) : Bool := !(FontVariation.operatorEq l r)

/-- `operator<` on `FontVariation` (lines 44-46). -/
def FontVariation.operatorLt (l r : FontVariation) : Bool := decide (l.axisTag < r.axisTag)

/-- `operator>` on `FontVariation` (lines 48-50). -/
def FontVariation.operatorGt (l r : FontVariation) : Bool := decide (l.axisTag > r.axisTag)

/-- `operator<=` on `FontVariation` (lines 52-54). -/
def FontVariation.operatorLe (l r : FontVariation) : Bool := decide (l.axisTag ≤ r.axisTag)

/-- `operator>=` on `FontVariation` (lines 56-58). -/
def FontVariation.operatorGe (l r : FontVariation) : Bool := decide (l.axisTag ≥ r.axisTag)

/-- `class Range` (`Range.h`): `mStart` inclusive, `mEnd` exclusive, both `uint32_t`. -/
structure Range where
  mStart : Nat
  mEnd : Nat
  deriving DecidableEq, Repr

/-- `Range::getStart()`. -/
def Range.getStart (r : Range) : Nat := r.mStart

/-- `Range::getEnd()`. -/
def Range.getEnd (r : Range) : Nat := r.mEnd

/-- `Range::getLength()`: `mEnd - mStart` in unsigned 32-bit arithmetic. -/
def Range.getLength (r : Range) : Nat := (r.mEnd + 2 ^ 32 - r.mStart) % 2 ^ 32

/-- `Range::isEmpty()`. -/
def Range.isEmpty (r : Range) : Bool := decide (r.mStart = r.mEnd)

/-- `Range::toRangeOffset(globalPos)`: `globalPos - mStart` in unsigned 32-bit arithmetic. -/
def Range.toRangeOffset (r : Range) (globalPos : Nat) : Nat :=
  (globalPos + 2 ^ 32 - r.mStart) % 2 ^ 32

/-- `Range::toGlobalOffset(rangePos)`: `mStart + rangePos` in unsigned 32-bit arithmetic. -/
def Range.toGlobalOffset (r : Range) (rangePos : Nat) : Nat := (r.mStart + rangePos) % 2 ^ 32

/-- `Range::split(pos)`. -/
def Range.split (r : Range) (pos : Nat) : Range × Range := (⟨r.mStart, pos⟩, ⟨pos, r.mEnd⟩)

/-- `Range::contains(const Range& other)`. -/
def Range.containsRange (r other : Range) : Bool :=
  decide (r.mStart ≤ other.mStart) && decide (other.mEnd ≤ r.mEnd)

/-- `Range::contains(uint32_t pos)`. -/
def Range.contains (r : Range) (pos : Nat) : Bool :=
  decide (r.mStart ≤ pos) && decide (pos < r.mEnd)

/-- `constexpr uint32_t FIXED_BUFFER_SIZE = 8;` (`FontFakery.cpp`, line 34). -/
def FIXED_BUFFER_SIZE : Nat := 8

/-- Lines 33-42 of `FontFakery.cpp`: the number of slots of the buffer `adjustedVars` points to,
the heap array when `baseVS.size() + targetVS.size() + 2 > FIXED_BUFFER_SIZE`, else the fixed
array. -/
def adjustedVarsCapacity (baseVS targetVS : VariationSettings) : Nat :=
  if baseVS.length + targetVS.length + 2 > FIXED_BUFFER_SIZE then
    baseVS.length + targetVS.length + 2
  else FIXED_BUFFER_SIZE

/-- The sequence whose element the branch reads for `value`. -/
inductive ValueSource where
  | base
  | target
  | style
  deriving DecidableEq, Repr

/-- Lines 80-139: the sequence each of the nine branches reads `value` from
(`baseVS[baseIdx].value`, `targetVS[targetIdx].value` or `styleVars[styleIdx].value`). -/
def valueSource (baseVS targetVS sv : List FontVariation) (st : LoopState) : ValueSource :=
  let baseTag := tagAt baseVS st.baseIdx
  let targetTag := tagAt targetVS st.targetIdx
  let styleTag := tagAt sv st.styleIdx
  if baseTag < targetTag then
    if styleTag < baseTag then ValueSource.style
    else if styleTag = baseTag then ValueSource.base
    else ValueSource.base
  else if targetTag < baseTag then
    if styleTag < targetTag then ValueSource.style
    else if styleTag = targetTag then ValueSource.target
    else ValueSource.target
  else
    if styleTag < baseTag then ValueSource.style
    else if styleTag = baseTag then ValueSource.target
    else ValueSource.target

/-- The sequence a source stands for. -/
def ValueSource.sequence (src : ValueSource) (baseVS targetVS sv : List FontVariation) :
    List FontVariation :=
  match src with
  | ValueSource.base => baseVS
  | ValueSource.target => targetVS
  | ValueSource.style => sv

/-- The cursor of a source. -/
def ValueSource.cursor (src : ValueSource) (st : LoopState) : Nat :=
  match src with
  | ValueSource.base => st.baseIdx
  | ValueSource.target => st.targetIdx
  | ValueSource.style => st.styleIdx

/-- The state after exactly `n` passes through the loop body; `none` when one of them reads past
the end of a sequence. -/
def loopIter (fvar : FVarTable) (baseVS targetVS sv : List FontVariation)
    (targetStyle : FontStyle) : Nat → LoopState → Option LoopState
  | 0, st => some st
  | n + 1, st =>
    (loopBody fvar baseVS targetVS sv targetStyle st).bind
      (loopIter fvar baseVS targetVS sv targetStyle n)

/-- No cursor is beyond the end of its sequence. -/
def InBounds (baseVS targetVS sv : List FontVariation) (st : LoopState) : Prop :=
  st.baseIdx ≤ baseVS.length ∧ st.targetIdx ≤ targetVS.length ∧ st.styleIdx ≤ sv.length

/-- `{{wght, {100, 900, 400}}}` (`testMerge_fakeBold_fullrange_font`). -/
def fvarWghtFull : FVarTable := tableOf [(TAG_wght, ⟨100, 900, 400⟩)]
/-- `{{wght, {100, 700, 400}}}` (`testMerge_fakeBold_limited_range_font`). -/
def fvarWghtLimited : FVarTable := tableOf [(TAG_wght, ⟨100, 700, 400⟩)]
/-- `{{ital, {0, 1, 0}}}` (`testMerge_fakeItalic_ital_font`). -/
def fvarItal : FVarTable := tableOf [(TAG_ital, ⟨0, 1, 0⟩)]
/-- `{{slnt, {-10, 0, 0}}}` (`testMerge_fakeItalic_slnt_font`). -/
def fvarSlnt : FVarTable := tableOf [(TAG_slnt, ⟨-10, 0, 0⟩)]

/-! ## Comparisons of `float` -/

theorem FloatVal.lt_def (a b : FloatVal) : a < b ↔ FloatVal.lt a b := Iff.rfl

theorem FloatVal.le_def (a b : FloatVal) : a ≤ b ↔ FloatVal.le a b := Iff.rfl

theorem FloatVal.val_lt_val (p q : ℚ) : FloatVal.val p < FloatVal.val q ↔ p < q := Iff.rfl

theorem FloatVal.val_le_val (p q : ℚ) : FloatVal.val p ≤ FloatVal.val q ↔ p ≤ q := Iff.rfl

theorem FloatVal.not_nan_lt (b : FloatVal) : ¬ FloatVal.nan < b := fun h => h

theorem FloatVal.not_lt_nan (a : FloatVal) : ¬ a < FloatVal.nan := by
  cases a with
  | nan => exact fun h => h
  | val p => exact fun h => h

theorem FloatVal.not_nan_le (b : FloatVal) : ¬ FloatVal.nan ≤ b := fun h => h

theorem FloatVal.not_le_nan (a : FloatVal) : ¬ a ≤ FloatVal.nan := by
  cases a with
  | nan => exact fun h => h
  | val p => exact fun h => h

theorem FloatVal.feq_val_left (p : ℚ) (b : FloatVal) :
    FloatVal.feq (FloatVal.val p) b = true ↔ b = FloatVal.val p := by
  cases b with
  | nan => simp [FloatVal.feq]
  | val q =>
    simp only [FloatVal.feq, decide_eq_true_eq, FloatVal.val.injEq]
    exact eq_comm

theorem FloatVal.feq_nan_left (b : FloatVal) : FloatVal.feq FloatVal.nan b = false := rfl

theorem FloatVal.feq_eq_true_iff (a b : FloatVal) :
    FloatVal.feq a b = true ↔ a ≠ FloatVal.nan ∧ a = b := by
  cases a with
  | nan => simp [FloatVal.feq]
  | val p =>
    rw [FloatVal.feq_val_left]
    constructor
    · intro h
      exact ⟨by simp, h.symm⟩
    · intro h
      exact h.2.symm

theorem FloatVal.natCast_eq (n : Nat) : ((n : Nat) : FloatVal) = FloatVal.val (n : ℚ) := rfl

theorem FloatVal.ofNat_eq (n : Nat) : (OfNat.ofNat n : FloatVal) = FloatVal.val (n : ℚ) := rfl

theorem FloatVal.neg_val (p : ℚ) : -(FloatVal.val p) = FloatVal.val (-p) := rfl

theorem FloatVal.val_sub_val (p q : ℚ) :
    FloatVal.val p - FloatVal.val q = FloatVal.val (p - q) := rfl

/-! ## The branch of the loop in closed form -/

theorem tagAt_eq_headTag (vs : List FontVariation) (i : Nat) :
    tagAt vs i = headTag (vs.drop i) := by
  unfold tagAt
  split
  · rename_i h
    rw [List.drop_eq_getElem_cons h]
    simp [headTag]
  · rename_i h
    rw [List.drop_eq_nil_of_le (by omega)]
    rfl

theorem valueAt_eq_head (vs : List FontVariation) (i : Nat) :
    valueAt vs i = (vs.drop i).head?.map FontVariation.value := by
  unfold valueAt
  simp [List.head?_drop]

theorem pick_eq (baseVS targetVS sv : List FontVariation) (st : LoopState) :
    pick baseVS targetVS sv st =
      (if tagAt targetVS st.targetIdx
            = min (tagAt baseVS st.baseIdx) (min (tagAt targetVS st.targetIdx) (tagAt sv st.styleIdx))
        then valueAt targetVS st.targetIdx
        else if tagAt baseVS st.baseIdx
            = min (tagAt baseVS st.baseIdx) (min (tagAt targetVS st.targetIdx) (tagAt sv st.styleIdx))
        then valueAt baseVS st.baseIdx
        else valueAt sv st.styleIdx).map fun value =>
        (⟨min (tagAt baseVS st.baseIdx) (min (tagAt targetVS st.targetIdx) (tagAt sv st.styleIdx)),
          value,
          decide (tagAt sv st.styleIdx < tagAt baseVS st.baseIdx
                  ∧ tagAt sv st.styleIdx < tagAt targetVS st.targetIdx),
          if tagAt baseVS st.baseIdx
            = min (tagAt baseVS st.baseIdx) (min (tagAt targetVS st.targetIdx) (tagAt sv st.styleIdx))
            then st.baseIdx + 1 else st.baseIdx,
          if tagAt targetVS st.targetIdx
            = min (tagAt baseVS st.baseIdx) (min (tagAt targetVS st.targetIdx) (tagAt sv st.styleIdx))
            then st.targetIdx + 1 else st.targetIdx,
          if tagAt sv st.styleIdx
            = min (tagAt baseVS st.baseIdx) (min (tagAt targetVS st.targetIdx) (tagAt sv st.styleIdx))
            then st.styleIdx + 1 else st.styleIdx⟩ : Pick) := by
  unfold pick
  generalize tagAt baseVS st.baseIdx = tb
  generalize tagAt targetVS st.targetIdx = tt
  generalize tagAt sv st.styleIdx = ts
  generalize hm : min tb (min tt ts) = m
  simp only []
  rcases Nat.lt_trichotomy tb tt with h1 | h1 | h1
  · rcases Nat.lt_trichotomy ts tb with h2 | h2 | h2
    · obtain rfl : ts = m := by omega
      have e1 : tt ≠ ts := by omega
      have e2 : tb ≠ ts := by omega
      have e3 : ts < tt := by omega
      simp [h1, h2, e1, e2, e3]
    · obtain rfl : ts = m := by omega
      subst h2
      have e1 : tt ≠ ts := by omega
      simp [h1, e1]
    · obtain rfl : tb = m := by omega
      have e1 : tt ≠ tb := by omega
      have e2 : ts ≠ tb := by omega
      have e3 : ¬ ts < tb := by omega
      simp [h1, e1, e2, e3]
  · subst h1
    rcases Nat.lt_trichotomy ts tb with h2 | h2 | h2
    · obtain rfl : ts = m := by omega
      have e2 : tb ≠ ts := by omega
      simp [h2, e2]
    · obtain rfl : ts = m := by omega
      simp [h2]
    · obtain rfl : tb = m := by omega
      have e2 : ts ≠ tb := by omega
      have e3 : ¬ ts < tb := by omega
      simp [e2, e3]
  · have h0 : ¬ tb < tt := by omega
    rcases Nat.lt_trichotomy ts tt with h2 | h2 | h2
    · obtain rfl : ts = m := by omega
      have e1 : tt ≠ ts := by omega
      have e2 : tb ≠ ts := by omega
      have e3 : ts < tb := by omega
      simp [h0, h1, h2, e1, e2, e3]
    · obtain rfl : ts = m := by omega
      subst h2
      have e2 : tb ≠ ts := by omega
      simp [h0, h1, e2]
    · obtain rfl : tt = m := by omega
      have e1 : tb ≠ tt := by omega
      have e2 : ts ≠ tt := by omega
      have e3 : ¬ ts < tt := by omega
      simp [h0, h1, e1, e2, e3]

/-! ## Valid sequences and their cursors -/

theorem validVS_nil : ValidVS [] := by
  constructor
  · simp
  · intro v hv; cases hv

theorem validVS_cons {x : FontVariation} {l : List FontVariation} :
    ValidVS (x :: l) ↔ (x.axisTag < END ∧ (∀ v ∈ l, x.axisTag < v.axisTag)) ∧ ValidVS l := by
  unfold ValidVS
  simp only [List.map_cons, List.sorted_cons, List.mem_map, forall_exists_index, and_imp,
    forall_apply_eq_imp_iff₂, List.mem_cons, forall_eq_or_imp]
  tauto

theorem ValidVS.tail {l : List FontVariation} (h : ValidVS l) : ValidVS l.tail := by
  cases l with
  | nil => exact validVS_nil
  | cons x l => exact (validVS_cons.1 h).2

theorem ValidVS.drop {l : List FontVariation} (h : ValidVS l) (n : Nat) : ValidVS (l.drop n) := by
  induction n generalizing l with
  | zero => simpa using h
  | succ n ih =>
    cases l with
    | nil => simpa using validVS_nil
    | cons x l => simpa using ih (validVS_cons.1 h).2

theorem ValidVS.advance {l : List FontVariation} (h : ValidVS l) (m : Nat) :
    ValidVS (advance m l) := by
  unfold minikin.advance
  split
  · exact h.tail
  · exact h

theorem headTag_le_END {l : List FontVariation} (h : ValidVS l) : headTag l ≤ END := by
  cases l with
  | nil => exact Nat.le_refl _
  | cons x l => exact Nat.le_of_lt (validVS_cons.1 h).1.1

theorem headTag_le_of_mem {l : List FontVariation} (h : ValidVS l) {v : FontVariation}
    (hv : v ∈ l) : headTag l ≤ v.axisTag := by
  cases l with
  | nil => cases hv
  | cons x l =>
    rcases List.mem_cons.1 hv with rfl | hv
    · exact Nat.le_refl _
    · exact Nat.le_of_lt ((validVS_cons.1 h).1.2 v hv)

theorem lt_of_mem_advance {l : List FontVariation} (h : ValidVS l) {m : Nat}
    (hm : m ≤ headTag l) {v : FontVariation} (hv : v ∈ advance m l) : m < v.axisTag := by
  unfold minikin.advance at hv
  split at hv
  · rename_i he
    cases l with
    | nil => cases hv
    | cons x l =>
      have := (validVS_cons.1 h).1.2 v hv
      simp only [headTag] at he
      omega
  · rename_i he
    have := headTag_le_of_mem h hv
    omega

theorem cons_of_headTag {l : List FontVariation} {m : Nat} (hm : headTag l = m) (hlt : m < END) :
    ∃ x l', l = x :: l' ∧ x.axisTag = m := by
  cases l with
  | nil => simp only [headTag] at hm; omega
  | cons x l => exact ⟨x, l, rfl, hm⟩

theorem lookupVar_eq_none_iff {l : List FontVariation} {m : Nat} :
    lookupVar l m = none ↔ ∀ v ∈ l, v.axisTag ≠ m := by
  unfold lookupVar
  simp [List.find?_eq_none]

theorem lookupVar_eq_none {l : List FontVariation} (h : ValidVS l) {m : Nat}
    (hm : m < headTag l) : lookupVar l m = none := by
  rw [lookupVar_eq_none_iff]
  intro v hv
  have := headTag_le_of_mem h hv
  omega

theorem lookupVar_cons_self (x : FontVariation) (l : List FontVariation) :
    lookupVar (x :: l) x.axisTag = some x.value := by
  simp [lookupVar]

theorem lookupVar_cons_ne {x : FontVariation} (l : List FontVariation) {a : Nat}
    (h : x.axisTag ≠ a) : lookupVar (x :: l) a = lookupVar l a := by
  simp [lookupVar, List.find?_cons, h]

theorem lookupVar_advance (l : List FontVariation) {m a : Nat} (h : a ≠ m) :
    lookupVar (advance m l) a = lookupVar l a := by
  unfold minikin.advance
  split
  · rename_i he
    cases l with
    | nil => rfl
    | cons x l =>
      simp only [headTag] at he
      rw [List.tail_cons, lookupVar_cons_ne]
      omega
  · rfl

theorem mem_tags_advance (l : List FontVariation) {m : Nat} (hlt : m < END) (a : Nat) :
    a ∈ l.map FontVariation.axisTag ↔
      (a = m ∧ headTag l = m) ∨ a ∈ (advance m l).map FontVariation.axisTag := by
  unfold minikin.advance
  split
  · rename_i he
    obtain ⟨x, l', rfl, hx⟩ := cons_of_headTag he hlt
    simp only [List.map_cons, List.mem_cons, List.tail_cons, he, and_true]
    rw [hx]
  · rename_i he
    simp [he]

theorem advance_length_le (m : Nat) (l : List FontVariation) :
    (advance m l).length ≤ l.length := by
  unfold minikin.advance
  split
  · simp
  · exact Nat.le_refl _

theorem advance_length_lt {m : Nat} {l : List FontVariation} (hm : headTag l = m)
    (hlt : m < END) : (advance m l).length < l.length := by
  obtain ⟨x, l', rfl, _⟩ := cons_of_headTag hm hlt
  unfold minikin.advance
  simp [hm]

theorem drop_advance (l : List FontVariation) (i m : Nat) :
    l.drop (if tagAt l i = m then i + 1 else i) = advance m (l.drop i) := by
  unfold minikin.advance
  rw [tagAt_eq_headTag]
  split
  · simp [List.tail_drop]
  · rfl

/-! ## The declarative list, one tag at a time -/

theorem specTags_sorted (B T S : List FontVariation) : (specTags B T S).Sorted (· < ·) := by
  unfold specTags
  exact (List.sorted_insertionSort (· ≤ ·) _).lt_of_le
    ((List.perm_insertionSort (· ≤ ·) _).nodup_iff.2 (List.nodup_dedup _))

theorem mem_specTags (B T S : List FontVariation) (a : Nat) :
    a ∈ specTags B T S ↔
      a ∈ B.map FontVariation.axisTag ∨ a ∈ T.map FontVariation.axisTag
        ∨ a ∈ S.map FontVariation.axisTag := by
  unfold specTags
  rw [List.mem_insertionSort, List.mem_dedup]
  simp only [List.map_append, List.mem_append]
  tauto

theorem sorted_lt_ext {l₁ l₂ : List Nat} (h₁ : l₁.Sorted (· < ·)) (h₂ : l₂.Sorted (· < ·))
    (h : ∀ a, a ∈ l₁ ↔ a ∈ l₂) : l₁ = l₂ :=
  List.eq_of_perm_of_sorted ((List.perm_ext_iff_of_nodup h₁.nodup h₂.nodup).2 h) h₁ h₂

theorem minTag_cases (B T S : List FontVariation) :
    headTag T = minTag B T S ∨ (headTag T ≠ minTag B T S ∧ headTag B = minTag B T S) ∨
      (headTag T ≠ minTag B T S ∧ headTag B ≠ minTag B T S ∧ headTag S = minTag B T S) := by
  unfold minTag
  omega

theorem minTag_le (B T S : List FontVariation) :
    minTag B T S ≤ headTag B ∧ minTag B T S ≤ headTag T ∧ minTag B T S ≤ headTag S := by
  unfold minTag
  omega

theorem specTags_step {B T S : List FontVariation} (hB : ValidVS B) (hT : ValidVS T)
    (hS : ValidVS S) (hlt : minTag B T S < END) :
    specTags B T S = minTag B T S ::
      specTags (advance (minTag B T S) B) (advance (minTag B T S) T)
        (advance (minTag B T S) S) := by
  obtain ⟨leB, leT, leS⟩ := minTag_le B T S
  apply sorted_lt_ext (specTags_sorted _ _ _)
  · rw [List.sorted_cons]
    refine ⟨?_, specTags_sorted _ _ _⟩
    intro b hb
    rw [mem_specTags] at hb
    simp only [List.mem_map] at hb
    rcases hb with ⟨v, hv, rfl⟩ | ⟨v, hv, rfl⟩ | ⟨v, hv, rfl⟩
    · exact lt_of_mem_advance hB leB hv
    · exact lt_of_mem_advance hT leT hv
    · exact lt_of_mem_advance hS leS hv
  · intro a
    rw [List.mem_cons, mem_specTags, mem_specTags, mem_tags_advance B hlt a,
      mem_tags_advance T hlt a, mem_tags_advance S hlt a]
    have := minTag_cases B T S
    tauto

theorem specEntry_advance (fvar : FVarTable) (B T S : List FontVariation) {m a : Nat}
    (h : a ≠ m) :
    specEntry fvar (advance m B) (advance m T) (advance m S) a = specEntry fvar B T S a := by
  unfold specEntry specChoice
  rw [lookupVar_advance B h, lookupVar_advance T h, lookupVar_advance S h]

theorem specOut_step (fvar : FVarTable) {B T S : List FontVariation} (hB : ValidVS B)
    (hT : ValidVS T) (hS : ValidVS S) (hlt : minTag B T S < END) :
    specOut fvar B T S = (specEntry fvar B T S (minTag B T S)).toList ++
      specOut fvar (advance (minTag B T S) B) (advance (minTag B T S) T)
        (advance (minTag B T S) S) := by
  have hsorted := specTags_sorted B T S
  rw [specTags_step hB hT hS hlt, List.sorted_cons] at hsorted
  unfold specOut
  rw [specTags_step hB hT hS hlt, List.filterMap_cons]
  have hrest : List.filterMap (specEntry fvar B T S)
      (specTags (advance (minTag B T S) B) (advance (minTag B T S) T)
        (advance (minTag B T S) S))
      = List.filterMap (specEntry fvar (advance (minTag B T S) B) (advance (minTag B T S) T)
          (advance (minTag B T S) S))
        (specTags (advance (minTag B T S) B) (advance (minTag B T S) T)
          (advance (minTag B T S) S)) := by
    apply List.filterMap_congr
    intro a ha
    have := hsorted.1 a ha
    exact (specEntry_advance fvar B T S (by omega)).symm
  rw [hrest]
  cases specEntry fvar B T S (minTag B T S) <;> rfl

theorem specOut_nil (fvar : FVarTable) : specOut fvar [] [] [] = [] := rfl

/-! ## One iteration of the loop -/

theorem emit_eq (fvar : FVarTable) (targetStyle : FontStyle) (p : Pick) (st : LoopState) :
    emit fvar targetStyle p st =
      ⟨p.baseIdx, p.targetIdx, p.styleIdx,
        st.adjustedVars ++ (specFilter fvar p.tag (p.value, p.styleValueUsed)).toList,
        foldBold targetStyle st.fakeBold
          (specFilter fvar p.tag (p.value, p.styleValueUsed)).toList⟩ := by
  unfold emit specFilter
  cases fvar p.tag with
  | none => simp [foldBold]
  | some e =>
    simp only []
    split
    · simp [foldBold]
    · simp [foldBold, boldRule]

theorem selected_value {B T S : List FontVariation} (hB : ValidVS B) (hT : ValidVS T)
    (hlt : minTag B T S < END) :
    ∃ v, (if headTag T = minTag B T S then T.head?.map FontVariation.value
          else if headTag B = minTag B T S then B.head?.map FontVariation.value
          else S.head?.map FontVariation.value) = some v ∧
      specChoice B T S (minTag B T S)
        = some (v, decide (headTag S < headTag B ∧ headTag S < headTag T)) := by
  obtain ⟨leB, leT, leS⟩ := minTag_le B T S
  rcases minTag_cases B T S with h | ⟨hT', h⟩ | ⟨hT', hB', h⟩
  · obtain ⟨x, l, rfl, hx⟩ := cons_of_headTag h hlt
    refine ⟨x.value, by simp [h], ?_⟩
    have hd : ¬ (headTag S < headTag B ∧ headTag S < headTag (x :: l)) := by omega
    unfold specChoice
    rw [← hx, lookupVar_cons_self]
    simp only [hd, decide_False]
  · obtain ⟨x, l, rfl, hx⟩ := cons_of_headTag h hlt
    refine ⟨x.value, by simp [h, hT'], ?_⟩
    have hd : ¬ (headTag S < headTag (x :: l) ∧ headTag S < headTag T) := by omega
    unfold specChoice
    rw [lookupVar_eq_none hT (by omega), ← hx, lookupVar_cons_self]
    simp only [hd, decide_False]
  · obtain ⟨x, l, rfl, hx⟩ := cons_of_headTag h hlt
    refine ⟨x.value, by simp [hB', hT'], ?_⟩
    have hd : headTag (x :: l) < headTag B ∧ headTag (x :: l) < headTag T := by omega
    unfold specChoice
    rw [lookupVar_eq_none hT (by omega), lookupVar_eq_none hB (by omega), ← hx,
      lookupVar_cons_self]
    simp only [hd, and_self, decide_True, Option.map_some']

theorem loopBody_valid (fvar : FVarTable) (baseVS targetVS sv : List FontVariation)
    (targetStyle : FontStyle) (st : LoopState)
    (hB : ValidVS (baseVS.drop st.baseIdx)) (hT : ValidVS (targetVS.drop st.targetIdx))
    (hlt : minTag (baseVS.drop st.baseIdx) (targetVS.drop st.targetIdx) (sv.drop st.styleIdx)
      < END) :
    ∃ st', loopBody fvar baseVS targetVS sv targetStyle st = some st' ∧
      baseVS.drop st'.baseIdx
        = advance (minTag (baseVS.drop st.baseIdx) (targetVS.drop st.targetIdx)
            (sv.drop st.styleIdx)) (baseVS.drop st.baseIdx) ∧
      targetVS.drop st'.targetIdx
        = advance (minTag (baseVS.drop st.baseIdx) (targetVS.drop st.targetIdx)
            (sv.drop st.styleIdx)) (targetVS.drop st.targetIdx) ∧
      sv.drop st'.styleIdx
        = advance (minTag (baseVS.drop st.baseIdx) (targetVS.drop st.targetIdx)
            (sv.drop st.styleIdx)) (sv.drop st.styleIdx) ∧
      st'.adjustedVars = st.adjustedVars ++
        (specEntry fvar (baseVS.drop st.baseIdx) (targetVS.drop st.targetIdx)
          (sv.drop st.styleIdx)
          (minTag (baseVS.drop st.baseIdx) (targetVS.drop st.targetIdx)
            (sv.drop st.styleIdx))).toList ∧
      st'.fakeBold = foldBold targetStyle st.fakeBold
        (specEntry fvar (baseVS.drop st.baseIdx) (targetVS.drop st.targetIdx)
          (sv.drop st.styleIdx)
          (minTag (baseVS.drop st.baseIdx) (targetVS.drop st.targetIdx)
            (sv.drop st.styleIdx))).toList := by
  obtain ⟨v, hsel, hch⟩ := selected_value hB hT hlt
  unfold loopBody
  rw [pick_eq]
  simp only [valueAt_eq_head]
  have e1 := tagAt_eq_headTag baseVS st.baseIdx
  have e2 := tagAt_eq_headTag targetVS st.targetIdx
  have e3 := tagAt_eq_headTag sv st.styleIdx
  have hmin : min (tagAt baseVS st.baseIdx) (min (tagAt targetVS st.targetIdx)
      (tagAt sv st.styleIdx))
      = minTag (baseVS.drop st.baseIdx) (targetVS.drop st.targetIdx) (sv.drop st.styleIdx) := by
    unfold minTag; rw [e1, e2, e3]
  rw [hmin]
  have hsel' : (if tagAt targetVS st.targetIdx
        = minTag (baseVS.drop st.baseIdx) (targetVS.drop st.targetIdx) (sv.drop st.styleIdx)
      then (targetVS.drop st.targetIdx).head?.map FontVariation.value
      else if tagAt baseVS st.baseIdx
        = minTag (baseVS.drop st.baseIdx) (targetVS.drop st.targetIdx) (sv.drop st.styleIdx)
      then (baseVS.drop st.baseIdx).head?.map FontVariation.value
      else (sv.drop st.styleIdx).head?.map FontVariation.value) = some v := by
    rw [e1, e2]; exact hsel
  rw [hsel']
  simp only [Option.map_some', emit_eq]
  refine ⟨_, rfl, drop_advance _ _ _, drop_advance _ _ _, drop_advance _ _ _, ?_, ?_⟩
  · simp only [specEntry, hch, Option.some_bind, e1, e2, e3]
  · simp only [specEntry, hch, Option.some_bind, e1, e2, e3]

/-! ## The whole loop -/

theorem loopCond_eq_false_iff (baseVS targetVS sv : List FontVariation) (st : LoopState) :
    loopCond baseVS targetVS sv st = false ↔
      baseVS.drop st.baseIdx = [] ∧ targetVS.drop st.targetIdx = [] ∧ sv.drop st.styleIdx = [] := by
  unfold loopCond
  simp only [decide_eq_false_iff_not, not_or, not_lt, List.drop_eq_nil_iff]

theorem minTag_lt_END {B T S : List FontVariation} (hB : ValidVS B) (hT : ValidVS T)
    (hS : ValidVS S) (h : ¬ (B = [] ∧ T = [] ∧ S = [])) : minTag B T S < END := by
  obtain ⟨leB, leT, leS⟩ := minTag_le B T S
  cases B with
  | cons x l => have := (validVS_cons.1 hB).1.1; simp only [headTag] at leB; omega
  | nil =>
    cases T with
    | cons x l => have := (validVS_cons.1 hT).1.1; simp only [headTag] at leT; omega
    | nil =>
      cases S with
      | cons x l => have := (validVS_cons.1 hS).1.1; simp only [headTag] at leS; omega
      | nil => exact absurd ⟨rfl, rfl, rfl⟩ h

theorem advance_total_lt {B T S : List FontVariation} (hlt : minTag B T S < END) :
    (advance (minTag B T S) B).length + (advance (minTag B T S) T).length
      + (advance (minTag B T S) S).length < B.length + T.length + S.length := by
  have lB := advance_length_le (minTag B T S) B
  have lT := advance_length_le (minTag B T S) T
  have lS := advance_length_le (minTag B T S) S
  rcases minTag_cases B T S with h | ⟨_, h⟩ | ⟨_, _, h⟩
  · have := advance_length_lt h hlt; omega
  · have := advance_length_lt h hlt; omega
  · have := advance_length_lt h hlt; omega

theorem foldBold_append (targetStyle : FontStyle) (init : Option Bool)
    (xs ys : List FontVariation) :
    foldBold targetStyle init (xs ++ ys) = foldBold targetStyle (foldBold targetStyle init xs) ys := by
  unfold foldBold
  rw [List.foldl_append]

theorem mergeLoop_valid (fvar : FVarTable) (baseVS targetVS sv : List FontVariation)
    (targetStyle : FontStyle) :
    ∀ (fuel : Nat) (st : LoopState),
      ValidVS (baseVS.drop st.baseIdx) → ValidVS (targetVS.drop st.targetIdx) →
      ValidVS (sv.drop st.styleIdx) →
      (baseVS.drop st.baseIdx).length + (targetVS.drop st.targetIdx).length
        + (sv.drop st.styleIdx).length ≤ fuel →
      ∃ st', mergeLoop fvar baseVS targetVS sv targetStyle fuel st = some st' ∧
        st'.adjustedVars = st.adjustedVars ++
          specOut fvar (baseVS.drop st.baseIdx) (targetVS.drop st.targetIdx)
            (sv.drop st.styleIdx) ∧
        st'.fakeBold = foldBold targetStyle st.fakeBold
          (specOut fvar (baseVS.drop st.baseIdx) (targetVS.drop st.targetIdx)
            (sv.drop st.styleIdx)) ∧
        baseVS.drop st'.baseIdx = [] ∧ targetVS.drop st'.targetIdx = []
          ∧ sv.drop st'.styleIdx = [] := by
  intro fuel
  induction fuel with
  | zero =>
    intro st _ _ _ hlen
    have hB : baseVS.drop st.baseIdx = [] := List.length_eq_zero.1 (by omega)
    have hT : targetVS.drop st.targetIdx = [] := List.length_eq_zero.1 (by omega)
    have hS : sv.drop st.styleIdx = [] := List.length_eq_zero.1 (by omega)
    have hc := (loopCond_eq_false_iff baseVS targetVS sv st).2 ⟨hB, hT, hS⟩
    refine ⟨st, by simp [mergeLoop, hc], ?_, ?_, hB, hT, hS⟩
    · rw [hB, hT, hS, specOut_nil, List.append_nil]
    · rw [hB, hT, hS, specOut_nil]; rfl
  | succ fuel ih =>
    intro st vB vT vS hlen
    by_cases hc : loopCond baseVS targetVS sv st = false
    · obtain ⟨hB, hT, hS⟩ := (loopCond_eq_false_iff baseVS targetVS sv st).1 hc
      refine ⟨st, by simp [mergeLoop, hc], ?_, ?_, hB, hT, hS⟩
      · rw [hB, hT, hS, specOut_nil, List.append_nil]
      · rw [hB, hT, hS, specOut_nil]; rfl
    · have hne := mt (loopCond_eq_false_iff baseVS targetVS sv st).2 hc
      have hlt := minTag_lt_END vB vT vS hne
      obtain ⟨st1, hbody, dB, dT, dS, hacc, hfb⟩ :=
        loopBody_valid fvar baseVS targetVS sv targetStyle st vB vT hlt
      have hdec := advance_total_lt hlt
      obtain ⟨st2, hloop, hacc2, hfb2, hend⟩ := ih st1
        (by rw [dB]; exact vB.advance _) (by rw [dT]; exact vT.advance _)
        (by rw [dS]; exact vS.advance _) (by rw [dB, dT, dS]; omega)
      have hc' : loopCond baseVS targetVS sv st = true := by simpa using hc
      refine ⟨st2, by simp [mergeLoop, hc', hbody, hloop], ?_, ?_, hend⟩
      · rw [hacc2, hacc, dB, dT, dS, specOut_step fvar vB vT vS hlt, List.append_assoc]
      · rw [hfb2, hfb, dB, dT, dS, specOut_step fvar vB vT vS hlt, foldBold_append]

theorem validVS_styleVars (fvar : FVarTable) (targetStyle : FontStyle) :
    ValidVS (styleVars fvar targetStyle) := by
  unfold styleVars
  split_ifs <;>
    simp [ValidVS, TAG_slnt, TAG_ital, TAG_wght, END]

theorem mergeLoopResult_valid (fvar : FVarTable) (baseVS targetVS : VariationSettings)
    (targetStyle : FontStyle) (hB : ValidVS baseVS) (hT : ValidVS targetVS) :
    ∃ st, mergeLoopResult fvar baseVS targetVS targetStyle = some st ∧
      st.adjustedVars = specMerge fvar baseVS targetVS targetStyle ∧
      st.fakeBold = foldBold targetStyle none (specMerge fvar baseVS targetVS targetStyle) := by
  obtain ⟨st, h, hacc, hfb, _⟩ := mergeLoop_valid fvar baseVS targetVS
    (styleVars fvar targetStyle) targetStyle (mergeFuel fvar baseVS targetVS targetStyle)
    initState (by simpa [initState] using hB) (by simpa [initState] using hT)
    (by simpa [initState] using validVS_styleVars fvar targetStyle)
    (by simp [initState, mergeFuel])
  refine ⟨st, h, ?_, ?_⟩
  · simpa [initState, specMerge] using hacc
  · simpa [initState, specMerge] using hfb

/-! ## The container constructor -/

theorem insertByTag_of_lt (v : FontVariation) (acc : List FontVariation)
    (h : ∀ x ∈ acc, x.axisTag < v.axisTag) : insertByTag v acc = acc ++ [v] := by
  induction acc with
  | nil => rfl
  | cons x acc ih =>
    have hx := h x (List.mem_cons_self _ _)
    have h1 : ¬ v.axisTag < x.axisTag := by omega
    have h2 : ¬ v.axisTag = x.axisTag := by omega
    simp only [insertByTag, h1, h2, if_false, List.cons_append]
    rw [ih (fun y hy => h y (List.mem_cons_of_mem _ hy))]

theorem foldl_insertByTag_sorted (l : List FontVariation) :
    ∀ acc : List FontVariation, ((acc ++ l).map FontVariation.axisTag).Sorted (· < ·) →
      l.foldl (fun acc v => insertByTag v acc) acc = acc ++ l := by
  induction l with
  | nil => intro acc _; simp
  | cons v l ih =>
    intro acc h
    have hlt : ∀ x ∈ acc, x.axisTag < v.axisTag := by
      intro x hx
      have h' := h
      simp only [List.map_append, List.map_cons, List.Sorted, List.pairwise_append] at h'
      exact h'.2.2 _ (List.mem_map_of_mem _ hx) _ (List.mem_cons_self _ _)
    rw [List.foldl_cons, insertByTag_of_lt v acc hlt, ih (acc ++ [v]) (by simpa using h)]
    simp

theorem ofBuffer_sorted (l : List FontVariation)
    (h : (l.map FontVariation.axisTag).Sorted (· < ·)) : VariationSettings.ofBuffer l = l := by
  unfold VariationSettings.ofBuffer
  simpa using foldl_insertByTag_sorted l [] (by simpa using h)

theorem mem_insertByTag {v x : FontVariation} {acc : List FontVariation}
    (h : x ∈ insertByTag v acc) : x = v ∨ x ∈ acc := by
  induction acc with
  | nil => simpa [insertByTag] using h
  | cons y acc ih =>
    simp only [insertByTag] at h
    split_ifs at h
    · rcases List.mem_cons.1 h with h | h
      · exact Or.inl h
      · exact Or.inr h
    · rcases List.mem_cons.1 h with h | h
      · exact Or.inl h
      · exact Or.inr (List.mem_cons_of_mem _ h)
    · rcases List.mem_cons.1 h with h | h
      · exact Or.inr (h ▸ List.mem_cons_self _ _)
      · rcases ih h with h | h
        · exact Or.inl h
        · exact Or.inr (List.mem_cons_of_mem _ h)

theorem mem_foldl_insertByTag {x : FontVariation} (l : List FontVariation) :
    ∀ acc : List FontVariation, x ∈ l.foldl (fun acc v => insertByTag v acc) acc →
      x ∈ acc ∨ x ∈ l := by
  induction l with
  | nil => intro acc h; exact Or.inl h
  | cons v l ih =>
    intro acc h
    rcases ih _ h with h | h
    · rcases mem_insertByTag h with h | h
      · exact Or.inr (h ▸ List.mem_cons_self _ _)
      · exact Or.inl h
    · exact Or.inr (List.mem_cons_of_mem _ h)

theorem mem_of_mem_ofBuffer {x : FontVariation} {l : List FontVariation}
    (h : x ∈ VariationSettings.ofBuffer l) : x ∈ l := by
  rcases mem_foldl_insertByTag l [] h with h | h
  · cases h
  · exact h

/-! ## Membership in the declarative list -/

theorem specFilter_eq_some {fvar : FVarTable} {tag : Nat} {c : FloatVal × Bool} {x : FontVariation}
    (h : specFilter fvar tag c = some x) :
    ∃ e, fvar tag = some e ∧ ¬ (c.2 = true ∧ FloatVal.feq c.1 e.defValue = true) ∧
      x = ⟨tag, clamp c.1 e.minValue e.maxValue⟩ := by
  unfold specFilter at h
  cases hf : fvar tag with
  | none => simp [hf] at h
  | some e =>
    simp only [hf] at h
    split_ifs at h with hc
    exact ⟨e, rfl, hc, (Option.some.inj h).symm⟩

theorem specFilter_of_entry {fvar : FVarTable} {tag : Nat} {c : FloatVal × Bool} {e : FVarEntry}
    (hf : fvar tag = some e) (hc : ¬ (c.2 = true ∧ FloatVal.feq c.1 e.defValue = true)) :
    specFilter fvar tag c = some ⟨tag, clamp c.1 e.minValue e.maxValue⟩ := by
  unfold specFilter
  simp only [hf, hc, if_false]

theorem lookupVar_eq_some {l : List FontVariation} {a : Nat} {v : FloatVal}
    (h : lookupVar l a = some v) : (⟨a, v⟩ : FontVariation) ∈ l := by
  unfold lookupVar at h
  simp only [Option.map_eq_some'] at h
  obtain ⟨x, hx, rfl⟩ := h
  have h1 := List.mem_of_find?_eq_some hx
  have h2 := List.find?_some hx
  simp only [decide_eq_true_eq] at h2
  subst h2
  exact h1

theorem lookupVar_of_mem {l : List FontVariation} (h : ValidVS l) {x : FontVariation}
    (hx : x ∈ l) : lookupVar l x.axisTag = some x.value := by
  induction l with
  | nil => cases hx
  | cons y l ih =>
    rcases List.mem_cons.1 hx with rfl | hx
    · exact lookupVar_cons_self _ _
    · have hv := validVS_cons.1 h
      have := hv.1.2 x hx
      rw [lookupVar_cons_ne l (by omega)]
      exact ih hv.2 hx

theorem specChoice_tag_mem {B T S : List FontVariation} {a : Nat} {c : FloatVal × Bool}
    (h : specChoice B T S a = some c) :
    a ∈ B.map FontVariation.axisTag ∨ a ∈ T.map FontVariation.axisTag
      ∨ a ∈ S.map FontVariation.axisTag := by
  unfold specChoice at h
  cases hT : lookupVar T a with
  | some v => exact Or.inr (Or.inl (List.mem_map.2 ⟨_, lookupVar_eq_some hT, rfl⟩))
  | none =>
    cases hB : lookupVar B a with
    | some v => exact Or.inl (List.mem_map.2 ⟨_, lookupVar_eq_some hB, rfl⟩)
    | none =>
      cases hS : lookupVar S a with
      | some v => exact Or.inr (Or.inr (List.mem_map.2 ⟨_, lookupVar_eq_some hS, rfl⟩))
      | none => simp [hT, hB, hS] at h

theorem specEntry_tag {fvar : FVarTable} {B T S : List FontVariation} {a : Nat}
    {x : FontVariation} (h : specEntry fvar B T S a = some x) : x.axisTag = a := by
  unfold specEntry at h
  simp only [Option.bind_eq_some] at h
  obtain ⟨c, _, hc⟩ := h
  obtain ⟨e, _, _, rfl⟩ := specFilter_eq_some hc
  rfl

theorem mem_specOut {fvar : FVarTable} {B T S : List FontVariation} {x : FontVariation} :
    x ∈ specOut fvar B T S ↔ specEntry fvar B T S x.axisTag = some x := by
  unfold specOut
  rw [List.mem_filterMap]
  constructor
  · rintro ⟨a, _, ha⟩
    rw [specEntry_tag ha]; exact ha
  · intro h
    refine ⟨x.axisTag, ?_, h⟩
    rw [mem_specTags]
    have h' := h
    unfold specEntry at h'
    simp only [Option.bind_eq_some] at h'
    obtain ⟨c, hc, _⟩ := h'
    exact specChoice_tag_mem hc

theorem specOut_sorted (fvar : FVarTable) (B T S : List FontVariation) :
    ((specOut fvar B T S).map FontVariation.axisTag).Sorted (· < ·) := by
  unfold specOut List.Sorted
  rw [List.pairwise_map]
  refine List.Pairwise.filterMap _ ?_ (specTags_sorted B T S)
  intro a a' haa b hb b' hb'
  rw [specEntry_tag (Option.mem_def.1 hb), specEntry_tag (Option.mem_def.1 hb')]
  exact haa

theorem filter_tag_eq_singleton {l : List FontVariation}
    (hs : (l.map FontVariation.axisTag).Sorted (· < ·)) {x : FontVariation} (hx : x ∈ l) :
    l.filter (fun y => decide (y.axisTag = x.axisTag)) = [x] := by
  induction l with
  | nil => cases hx
  | cons y l ih =>
    simp only [List.map_cons, List.sorted_cons, List.mem_map, forall_exists_index, and_imp,
      forall_apply_eq_imp_iff₂] at hs
    rcases List.mem_cons.1 hx with rfl | hx
    · have : l.filter (fun y => decide (y.axisTag = x.axisTag)) = [] := by
        rw [List.filter_eq_nil_iff]
        intro z hz
        have := hs.1 z hz
        simp only [decide_eq_true_eq]
        omega
      simp [List.filter_cons, this]
    · have := hs.1 x hx
      have hne : ¬ y.axisTag = x.axisTag := by omega
      simp only [List.filter_cons, hne, decide_False]
      exact ih hs.2 hx

/-! ## The result of `merge` on valid input -/

theorem merge_valid (fvar : FVarTable) (baseVS targetVS : VariationSettings)
    (baseStyle targetStyle : FontStyle) (hB : ValidVS baseVS) (hT : ValidVS targetVS) :
    merge fvar baseVS targetVS baseStyle targetStyle =
      some ⟨finalFakeBold fvar baseStyle targetStyle
              (foldBold targetStyle none (specMerge fvar baseVS targetVS targetStyle)),
            fakeItalicOf fvar baseStyle targetStyle,
            specMerge fvar baseVS targetVS targetStyle⟩ := by
  obtain ⟨st, h, hacc, hfb⟩ := mergeLoopResult_valid fvar baseVS targetVS targetStyle hB hT
  unfold merge
  rw [h, Option.map_some', hacc, hfb]
  have hs : VariationSettings.ofBuffer (specMerge fvar baseVS targetVS targetStyle)
      = specMerge fvar baseVS targetVS targetStyle :=
    ofBuffer_sorted _ (specOut_sorted _ _ _ _)
  rw [hs]

/-! ## What holds of the loop on every input -/

theorem mem_of_valueAt {vs : List FontVariation} {i : Nat} {v : FloatVal}
    (h : valueAt vs i = some v) : (⟨tagAt vs i, v⟩ : FontVariation) ∈ vs := by
  unfold valueAt at h
  simp only [Option.map_eq_some'] at h
  obtain ⟨x, hx, rfl⟩ := h
  obtain ⟨hi, hget⟩ := List.get?_eq_some.1 hx
  unfold tagAt
  rw [dif_pos hi, hget]
  exact hget ▸ List.get_mem _ _ _

theorem pick_origin {baseVS targetVS sv : List FontVariation} {st : LoopState} {p : Pick}
    (h : pick baseVS targetVS sv st = some p) :
    (⟨p.tag, p.value⟩ : FontVariation) ∈ baseVS ∨ (⟨p.tag, p.value⟩ : FontVariation) ∈ targetVS
      ∨ (⟨p.tag, p.value⟩ : FontVariation) ∈ sv := by
  rw [pick_eq] at h
  simp only [Option.map_eq_some'] at h
  obtain ⟨v, hv, rfl⟩ := h
  simp only []
  split_ifs at hv with h1 h2
  · rw [← h1]
    exact Or.inr (Or.inl (mem_of_valueAt hv))
  · rw [← h2]
    exact Or.inl (mem_of_valueAt hv)
  · have h3 : tagAt sv st.styleIdx = min (tagAt baseVS st.baseIdx)
        (min (tagAt targetVS st.targetIdx) (tagAt sv st.styleIdx)) := by omega
    rw [← h3]
    exact Or.inr (Or.inr (mem_of_valueAt hv))

theorem loopBody_sound {fvar : FVarTable} {baseVS targetVS sv : List FontVariation}
    {targetStyle : FontStyle} {st st' : LoopState}
    (h : loopBody fvar baseVS targetVS sv targetStyle st = some st') :
    ∃ out, st'.adjustedVars = st.adjustedVars ++ out ∧
      st'.fakeBold = foldBold targetStyle st.fakeBold out ∧
      ∀ x ∈ out, ∃ e v, fvar x.axisTag = some e ∧ x.value = clamp v e.minValue e.maxValue ∧
        ((⟨x.axisTag, v⟩ : FontVariation) ∈ baseVS ∨ (⟨x.axisTag, v⟩ : FontVariation) ∈ targetVS
          ∨ (⟨x.axisTag, v⟩ : FontVariation) ∈ sv) := by
  unfold loopBody at h
  simp only [Option.map_eq_some'] at h
  obtain ⟨p, hp, rfl⟩ := h
  rw [emit_eq]
  refine ⟨_, rfl, rfl, ?_⟩
  intro x hx
  simp only [Option.mem_toList, Option.mem_def] at hx
  obtain ⟨e, he, _, rfl⟩ := specFilter_eq_some hx
  exact ⟨e, _, he, rfl, pick_origin hp⟩

theorem mergeLoop_sound {fvar : FVarTable} {baseVS targetVS sv : List FontVariation}
    {targetStyle : FontStyle} :
    ∀ (fuel : Nat) (st st' : LoopState),
      mergeLoop fvar baseVS targetVS sv targetStyle fuel st = some st' →
      ∃ out, st'.adjustedVars = st.adjustedVars ++ out ∧
        st'.fakeBold = foldBold targetStyle st.fakeBold out ∧
        ∀ x ∈ out, ∃ e v, fvar x.axisTag = some e ∧ x.value = clamp v e.minValue e.maxValue ∧
          ((⟨x.axisTag, v⟩ : FontVariation) ∈ baseVS
            ∨ (⟨x.axisTag, v⟩ : FontVariation) ∈ targetVS
            ∨ (⟨x.axisTag, v⟩ : FontVariation) ∈ sv) := by
  intro fuel
  induction fuel with
  | zero =>
    intro st st' h
    simp only [mergeLoop] at h
    split_ifs at h
    obtain rfl := Option.some.inj h
    exact ⟨[], by simp, rfl, by simp⟩
  | succ fuel ih =>
    intro st st' h
    simp only [mergeLoop] at h
    split_ifs at h
    · cases hb : loopBody fvar baseVS targetVS sv targetStyle st with
      | none => simp [hb] at h
      | some st1 =>
        simp only [hb] at h
        obtain ⟨out1, ha1, hf1, hx1⟩ := loopBody_sound hb
        obtain ⟨out2, ha2, hf2, hx2⟩ := ih st1 st' h
        refine ⟨out1 ++ out2, by rw [ha2, ha1, List.append_assoc],
          by rw [hf2, hf1, foldBold_append], ?_⟩
        intro x hx
        rcases List.mem_append.1 hx with hx | hx
        · exact hx1 x hx
        · exact hx2 x hx
    · obtain rfl := Option.some.inj h
      exact ⟨[], by simp, rfl, by simp⟩

theorem tagAt_lt_END {vs : List FontVariation} {i : Nat} (h : tagAt vs i < END) :
    i < vs.length := by
  unfold tagAt at h
  split at h
  · assumption
  · omega

theorem tagAt_of_lt {vs : List FontVariation} (hv : NoSentinel vs) {i : Nat}
    (h : i < vs.length) : tagAt vs i < END := by
  unfold tagAt
  rw [dif_pos h]
  exact hv _ (List.get_mem _ _ _)

theorem valueAt_of_lt {vs : List FontVariation} {i : Nat} (h : i < vs.length) :
    ∃ v, valueAt vs i = some v := by
  unfold valueAt
  rw [List.get?_eq_get h]
  exact ⟨_, rfl⟩

theorem loopBody_total (fvar : FVarTable) {baseVS targetVS sv : List FontVariation}
    (targetStyle : FontStyle) (hB : NoSentinel baseVS) (hT : NoSentinel targetVS)
    (hS : NoSentinel sv) {st : LoopState} (hc : loopCond baseVS targetVS sv st = true) :
    ∃ st', loopBody fvar baseVS targetVS sv targetStyle st = some st' ∧
      remaining baseVS targetVS sv st' < remaining baseVS targetVS sv st ∧
      st.baseIdx ≤ st'.baseIdx ∧ st.targetIdx ≤ st'.targetIdx ∧ st.styleIdx ≤ st'.styleIdx := by
  unfold loopCond at hc
  simp only [decide_eq_true_eq] at hc
  have hm : min (tagAt baseVS st.baseIdx) (min (tagAt targetVS st.targetIdx)
      (tagAt sv st.styleIdx)) < END := by
    rcases hc with h | h | h
    · have := tagAt_of_lt hB h; omega
    · have := tagAt_of_lt hT h; omega
    · have := tagAt_of_lt hS h; omega
  unfold loopBody
  rw [pick_eq]
  generalize hmd : min (tagAt baseVS st.baseIdx) (min (tagAt targetVS st.targetIdx)
      (tagAt sv st.styleIdx)) = m at hm
  have hsel : ∃ v, (if tagAt targetVS st.targetIdx = m then valueAt targetVS st.targetIdx
      else if tagAt baseVS st.baseIdx = m then valueAt baseVS st.baseIdx
      else valueAt sv st.styleIdx) = some v := by
    split_ifs with h1 h2
    · exact valueAt_of_lt (tagAt_lt_END (by omega))
    · exact valueAt_of_lt (tagAt_lt_END (by omega))
    · exact valueAt_of_lt (tagAt_lt_END (by omega))
  obtain ⟨v, hv⟩ := hsel
  rw [hv]
  simp only [Option.map_some']
  refine ⟨_, rfl, ?_, ?_, ?_, ?_⟩
  · rw [emit_eq]
    unfold remaining
    simp only []
    have b1 : tagAt baseVS st.baseIdx = m → st.baseIdx < baseVS.length :=
      fun h => tagAt_lt_END (by omega)
    have b2 : tagAt targetVS st.targetIdx = m → st.targetIdx < targetVS.length :=
      fun h => tagAt_lt_END (by omega)
    have b3 : tagAt sv st.styleIdx = m → st.styleIdx < sv.length :=
      fun h => tagAt_lt_END (by omega)
    split_ifs with h1 h2 h3 <;> omega
  · rw [emit_eq]; simp only []; split_ifs <;> omega
  · rw [emit_eq]; simp only []; split_ifs <;> omega
  · rw [emit_eq]; simp only []; split_ifs <;> omega

theorem mergeLoop_total (fvar : FVarTable) {baseVS targetVS sv : List FontVariation}
    (targetStyle : FontStyle) (hB : NoSentinel baseVS) (hT : NoSentinel targetVS)
    (hS : NoSentinel sv) :
    ∀ (fuel : Nat) (st : LoopState), remaining baseVS targetVS sv st ≤ fuel →
      ∃ st', mergeLoop fvar baseVS targetVS sv targetStyle fuel st = some st' ∧
        loopCond baseVS targetVS sv st' = false := by
  intro fuel
  induction fuel with
  | zero =>
    intro st hr
    have hc : loopCond baseVS targetVS sv st = false := by
      unfold loopCond remaining at *
      simp only [decide_eq_false_iff_not]
      omega
    exact ⟨st, by simp [mergeLoop, hc], hc⟩
  | succ fuel ih =>
    intro st hr
    by_cases hc : loopCond baseVS targetVS sv st = true
    · obtain ⟨st1, hb, hdec, _⟩ := loopBody_total fvar targetStyle hB hT hS hc
      obtain ⟨st2, hl, hc2⟩ := ih st1 (by omega)
      exact ⟨st2, by simp [mergeLoop, hc, hb, hl], hc2⟩
    · have hc' : loopCond baseVS targetVS sv st = false := by simpa using hc
      exact ⟨st, by simp [mergeLoop, hc'], hc'⟩

theorem noSentinel_of_valid {vs : List FontVariation} (h : ValidVS vs) : NoSentinel vs := h.2

theorem merge_total (fvar : FVarTable) (baseVS targetVS : VariationSettings)
    (baseStyle targetStyle : FontStyle) (hB : NoSentinel baseVS) (hT : NoSentinel targetVS) :
    ∃ r, merge fvar baseVS targetVS baseStyle targetStyle = some r := by
  obtain ⟨st, h, _⟩ := mergeLoop_total fvar targetStyle hB hT
    (noSentinel_of_valid (validVS_styleVars fvar targetStyle))
    (mergeFuel fvar baseVS targetVS targetStyle) initState
    (by simp [remaining, initState, mergeFuel])
  exact ⟨_, by unfold merge mergeLoopResult; rw [h]; rfl⟩

theorem merge_sound {fvar : FVarTable} {baseVS targetVS : VariationSettings}
    {baseStyle targetStyle : FontStyle} {r : FontFakery}
    (h : merge fvar baseVS targetVS baseStyle targetStyle = some r) :
    ∃ out, r.variationSettings = VariationSettings.ofBuffer out ∧
      r.fakeBold = finalFakeBold fvar baseStyle targetStyle (foldBold targetStyle none out) ∧
      r.fakeItalic = fakeItalicOf fvar baseStyle targetStyle ∧
      ∀ x ∈ out, ∃ e v, fvar x.axisTag = some e ∧ x.value = clamp v e.minValue e.maxValue ∧
        ((⟨x.axisTag, v⟩ : FontVariation) ∈ baseVS ∨ (⟨x.axisTag, v⟩ : FontVariation) ∈ targetVS
          ∨ (⟨x.axisTag, v⟩ : FontVariation) ∈ styleVars fvar targetStyle) := by
  unfold merge mergeLoopResult at h
  simp only [Option.map_eq_some'] at h
  obtain ⟨st, hst, rfl⟩ := h
  obtain ⟨out, ha, hf, hx⟩ := mergeLoop_sound _ _ _ hst
  refine ⟨out, ?_, ?_, rfl, hx⟩
  · simp only [ha, initState, List.nil_append]
  · simp only [hf, initState]

/-! ## Entries of the merged settings -/

theorem clamp_nan (lo hi : FloatVal) : clamp FloatVal.nan lo hi = FloatVal.nan := by
  unfold clamp
  rw [if_neg (FloatVal.not_nan_lt lo), if_neg (FloatVal.not_lt_nan hi)]

theorem clamp_bounds {v lo hi : FloatVal} (h : lo ≤ hi) (hv : v ≠ FloatVal.nan) :
    lo ≤ clamp v lo hi ∧ clamp v lo hi ≤ hi := by
  cases v with
  | nan => exact absurd rfl hv
  | val x =>
    cases lo with
    | nan => exact absurd h (FloatVal.not_nan_le _)
    | val a =>
      cases hi with
      | nan => exact absurd h (FloatVal.not_le_nan _)
      | val b =>
        rw [FloatVal.val_le_val] at h
        unfold clamp
        simp only [FloatVal.val_lt_val]
        split_ifs with h1 h2
        · exact ⟨(FloatVal.val_le_val a a).2 (le_refl a), (FloatVal.val_le_val a b).2 h⟩
        · exact ⟨(FloatVal.val_le_val a b).2 h, (FloatVal.val_le_val b b).2 (le_refl b)⟩
        · exact ⟨(FloatVal.val_le_val a x).2 (not_lt.1 h1),
            (FloatVal.val_le_val x b).2 (not_lt.1 h2)⟩

theorem clamp_of_mem {v lo hi : FloatVal} (h1 : lo ≤ v) (h2 : v ≤ hi) : clamp v lo hi = v := by
  cases v with
  | nan => exact absurd h1 (FloatVal.not_le_nan _)
  | val x =>
    cases lo with
    | nan => exact absurd h1 (FloatVal.not_nan_le _)
    | val a =>
      cases hi with
      | nan => exact absurd h2 (FloatVal.not_le_nan _)
      | val b =>
        rw [FloatVal.val_le_val] at h1 h2
        unfold clamp
        simp only [FloatVal.val_lt_val]
        rw [if_neg (not_lt.2 h1), if_neg (not_lt.2 h2)]

theorem clamp_eq_nan_iff {v lo hi : FloatVal} (h : lo ≤ hi) :
    clamp v lo hi = FloatVal.nan ↔ v = FloatVal.nan := by
  constructor
  · intro hc
    by_contra hv
    have hb := (clamp_bounds h hv).1
    rw [hc] at hb
    exact FloatVal.not_le_nan _ hb
  · intro hv
    rw [hv, clamp_nan]

theorem specMerge_entry {fvar : FVarTable} {baseVS targetVS : VariationSettings}
    {targetStyle : FontStyle} {tag : Nat} {c : FloatVal × Bool} {e : FVarEntry}
    (hc : specChoice baseVS targetVS (styleVars fvar targetStyle) tag = some c)
    (he : fvar tag = some e) (hd : ¬ (c.2 = true ∧ FloatVal.feq c.1 e.defValue = true)) :
    (⟨tag, clamp c.1 e.minValue e.maxValue⟩ : FontVariation)
        ∈ specMerge fvar baseVS targetVS targetStyle ∧
      (specMerge fvar baseVS targetVS targetStyle).filter (fun x => decide (x.axisTag = tag))
        = [⟨tag, clamp c.1 e.minValue e.maxValue⟩] := by
  have hx : (⟨tag, clamp c.1 e.minValue e.maxValue⟩ : FontVariation)
      ∈ specMerge fvar baseVS targetVS targetStyle := by
    unfold specMerge
    rw [mem_specOut]
    simp only [specEntry, hc, Option.some_bind]
    exact specFilter_of_entry he hd
  exact ⟨hx, filter_tag_eq_singleton (specOut_sorted _ _ _ _) hx⟩

theorem specMerge_no_entry {fvar : FVarTable} {baseVS targetVS : VariationSettings}
    {targetStyle : FontStyle} {tag : Nat}
    (h : specEntry fvar baseVS targetVS (styleVars fvar targetStyle) tag = none) :
    ∀ x ∈ specMerge fvar baseVS targetVS targetStyle, x.axisTag ≠ tag := by
  intro x hx hxt
  unfold specMerge at hx
  rw [mem_specOut, hxt, h] at hx
  cases hx

theorem specChoice_of_target {baseVS targetVS sv : List FontVariation} (hT : ValidVS targetVS)
    {tag : Nat} {v : FloatVal} (hv : (⟨tag, v⟩ : FontVariation) ∈ targetVS) :
    specChoice baseVS targetVS sv tag = some (v, false) := by
  unfold specChoice
  rw [show lookupVar targetVS tag = some v from lookupVar_of_mem hT hv]

theorem specChoice_of_base {baseVS targetVS sv : List FontVariation} (hB : ValidVS baseVS)
    {tag : Nat} {v : FloatVal} (hv : (⟨tag, v⟩ : FontVariation) ∈ baseVS)
    (hnt : ∀ x ∈ targetVS, x.axisTag ≠ tag) :
    specChoice baseVS targetVS sv tag = some (v, false) := by
  unfold specChoice
  rw [lookupVar_eq_none_iff.2 hnt, show lookupVar baseVS tag = some v from lookupVar_of_mem hB hv]

theorem specChoice_of_style {baseVS targetVS sv : List FontVariation} {tag : Nat} {v : FloatVal}
    (hv : lookupVar sv tag = some v) (hnb : ∀ x ∈ baseVS, x.axisTag ≠ tag)
    (hnt : ∀ x ∈ targetVS, x.axisTag ≠ tag) :
    specChoice baseVS targetVS sv tag = some (v, true) := by
  unfold specChoice
  rw [lookupVar_eq_none_iff.2 hnt, lookupVar_eq_none_iff.2 hnb, hv]
  rfl

theorem styleVars_supported {fvar : FVarTable} {targetStyle : FontStyle} {x : FontVariation}
    (hx : x ∈ styleVars fvar targetStyle) : ∃ e, fvar x.axisTag = some e := by
  have key : ∀ t, fvar.count t = true → ∃ e, fvar t = some e := by
    intro t ht
    unfold FVarTable.count at ht
    exact Option.isSome_iff_exists.1 ht
  unfold styleVars at hx
  rcases List.mem_append.1 hx with hx | hx
  · by_cases hs : fvar.count TAG_slnt = true
    · rw [if_pos hs] at hx
      have ht : x.axisTag = TAG_slnt := by
        split_ifs at hx <;> simp only [List.mem_singleton] at hx <;> rw [hx]
      rw [ht]; exact key _ hs
    · rw [if_neg hs] at hx
      by_cases hi : fvar.count TAG_ital = true
      · rw [if_pos hi] at hx
        have ht : x.axisTag = TAG_ital := by
          split_ifs at hx <;> simp only [List.mem_singleton] at hx <;> rw [hx]
        rw [ht]; exact key _ hi
      · rw [if_neg hi] at hx; cases hx
  · by_cases hw : fvar.count TAG_wght = true
    · rw [if_pos hw, List.mem_singleton] at hx
      rw [hx]; exact key _ hw
    · rw [if_neg hw] at hx; cases hx

theorem specFilter_style {fvar : FVarTable} {tag : Nat} {e : FVarEntry} {v : FloatVal}
    (he : fvar tag = some e) (hv : v ≠ FloatVal.nan) :
    (v = e.defValue → specFilter fvar tag (v, true) = none) ∧
      (v ≠ e.defValue →
        specFilter fvar tag (v, true) = some ⟨tag, clamp v e.minValue e.maxValue⟩) := by
  unfold specFilter
  simp only [he, true_and]
  constructor
  · intro h
    rw [if_pos ((FloatVal.feq_eq_true_iff _ _).2 ⟨hv, h⟩)]
  · intro h
    rw [if_neg (fun hf => h ((FloatVal.feq_eq_true_iff _ _).1 hf).2)]

theorem styleVars_value_ne_nan {fvar : FVarTable} {targetStyle : FontStyle} {x : FontVariation}
    (hx : x ∈ styleVars fvar targetStyle) : x.value ≠ FloatVal.nan := by
  unfold styleVars at hx
  rcases List.mem_append.1 hx with hx | hx
  · split_ifs at hx <;>
      first
        | (simp only [List.mem_singleton] at hx; rw [hx]; decide)
        | exact absurd hx (List.not_mem_nil _)
  · split_ifs at hx
    · simp only [List.mem_singleton] at hx
      rw [hx]
      exact fun h => FloatVal.noConfusion h
    · exact absurd hx (List.not_mem_nil _)

theorem lookupVar_styleVars_slnt {fvar : FVarTable} {targetStyle : FontStyle} {e : FVarEntry}
    (hs : fvar TAG_slnt = some e) (hI : targetStyle.slant = Slant.ITALIC) :
    lookupVar (styleVars fvar targetStyle) TAG_slnt = some (-10) ∧
      lookupVar (styleVars fvar targetStyle) TAG_ital = none := by
  unfold styleVars FVarTable.count
  rw [hs]
  simp only [Option.isSome_some, if_true, hI]
  constructor
  · simp [lookupVar]
  · rw [lookupVar_eq_none_iff]
    intro v hv
    split_ifs at hv <;> simp at hv
    · rcases hv with rfl | rfl <;> simp [TAG_slnt, TAG_wght, TAG_ital]
    · subst hv; simp [TAG_slnt, TAG_ital]

theorem lookupVar_styleVars_ital {fvar : FVarTable} {targetStyle : FontStyle} {e : FVarEntry}
    (hs : fvar TAG_slnt = none) (hi : fvar TAG_ital = some e)
    (hI : targetStyle.slant = Slant.ITALIC) :
    lookupVar (styleVars fvar targetStyle) TAG_ital = some 1 := by
  unfold styleVars FVarTable.count
  rw [hs, hi]
  simp [hI, lookupVar]

/-! ## Claims -/

/-- C1: for every axis table, every base and target variation set that is strictly ascending by
tag with all tags below the sentinel, and every base and target style, `merge` returns a result
and its variation settings equal the list built declaratively (`specMerge`): the tags of base,
target and the style-implied list in ascending order without repetition, each with the value
chosen target first, then base, then style, dropped when the table has no entry or when the
style-implied value equals the default, and clamped into `[min, max]` otherwise. -/
theorem C1_merge_refines_spec (fvar : FVarTable) (baseVS targetVS : VariationSettings)
    (baseStyle targetStyle : FontStyle) (hB : ValidVS baseVS) (hT : ValidVS targetVS) :
    ∃ r, merge fvar baseVS targetVS baseStyle targetStyle = some r ∧
      r.variationSettings = specMerge fvar baseVS targetVS targetStyle :=
  ⟨_, merge_valid fvar baseVS targetVS baseStyle targetStyle hB hT, rfl⟩

/-- Witness of C1 on `testMerge_complex`: the hypotheses hold there, and the declarative list is
`'ABCD' 75, 'slnt' -10, 'wght' 750`. -/
theorem C1_merge_refines_spec_witness :
    ValidVS vsWght650 ∧ ValidVS vsABCD75Wght750 ∧
      specMerge fvarComplex vsWght650 vsABCD75Wght750 ITALIC
        = [⟨TAG_ABCD, 75⟩, ⟨TAG_slnt, -10⟩, ⟨TAG_wght, 750⟩] ∧
      ∃ r, merge fvarComplex vsWght650 vsABCD75Wght750 REGULAR ITALIC = some r ∧
        r.variationSettings = specMerge fvarComplex vsWght650 vsABCD75Wght750 ITALIC :=
  ⟨by decide, by decide, by decide,
    C1_merge_refines_spec fvarComplex vsWght650 vsABCD75Wght750 REGULAR ITALIC
      (by decide) (by decide)⟩

/-- C2 (override precedence): for every valid input and every tag that has an entry in the axis
table and appears in the target set with value `v`, the merged settings hold exactly one entry for
that tag, and its value is `v` clamped into the axis range, whatever base and style hold. -/
theorem C2_override_precedence (fvar : FVarTable) (baseVS targetVS : VariationSettings)
    (baseStyle targetStyle : FontStyle) (hB : ValidVS baseVS) (hT : ValidVS targetVS)
    (tag : Nat) (v : FloatVal) (e : FVarEntry) (he : fvar tag = some e)
    (hv : (⟨tag, v⟩ : FontVariation) ∈ targetVS) :
    ∃ r, merge fvar baseVS targetVS baseStyle targetStyle = some r ∧
      (⟨tag, clamp v e.minValue e.maxValue⟩ : FontVariation) ∈ r.variationSettings ∧
      r.variationSettings.filter (fun x => decide (x.axisTag = tag))
        = [⟨tag, clamp v e.minValue e.maxValue⟩] := by
  refine ⟨_, merge_valid fvar baseVS targetVS baseStyle targetStyle hB hT, ?_⟩
  exact specMerge_entry (specChoice_of_target hT hv) he (by simp)

/-- Witness of C2 on `testMerge`: table `{ABCD:[0,100,50]}`, base `'ABCD' 0`, target
`'ABCD' 100`; the call evaluates to `'ABCD' 100`. -/
theorem C2_override_precedence_witness :
    ValidVS vsABCD0 ∧ ValidVS vsABCD100 ∧
      merge fvarABCD vsABCD0 vsABCD100 REGULAR REGULAR
        = some ⟨some false, false, [⟨TAG_ABCD, 100⟩]⟩ ∧
      merge fvarWghtItal [] [⟨TAG_wght, 500⟩] REGULAR THIN
        = some ⟨some false, false, [⟨TAG_wght, 500⟩]⟩ ∧
      ∃ r, merge fvarABCD vsABCD0 vsABCD100 REGULAR REGULAR = some r ∧
        (⟨TAG_ABCD, clamp 100 0 100⟩ : FontVariation) ∈ r.variationSettings ∧
        r.variationSettings.filter (fun x => decide (x.axisTag = TAG_ABCD))
          = [⟨TAG_ABCD, clamp 100 0 100⟩] :=
  ⟨by decide, by decide, by decide, by decide,
    C2_override_precedence fvarABCD vsABCD0 vsABCD100 REGULAR REGULAR (by decide) (by decide)
      TAG_ABCD 100 ⟨0, 100, 50⟩ (by decide) (by decide)⟩

/-- C3 (base preservation): for every valid input and every tag that has an entry in the axis
table, appears in the base set with value `v` and does not appear in the target set, the merged
settings contain that tag, once, with `v` clamped into the axis range.  The target set may be
empty and the style-implied list may hold the same tag. -/
theorem C3_base_preservation (fvar : FVarTable) (baseVS targetVS : VariationSettings)
    (baseStyle targetStyle : FontStyle) (hB : ValidVS baseVS) (hT : ValidVS targetVS)
    (tag : Nat) (v : FloatVal) (e : FVarEntry) (he : fvar tag = some e)
    (hv : (⟨tag, v⟩ : FontVariation) ∈ baseVS) (hnt : ∀ x ∈ targetVS, x.axisTag ≠ tag) :
    ∃ r, merge fvar baseVS targetVS baseStyle targetStyle = some r ∧
      (⟨tag, clamp v e.minValue e.maxValue⟩ : FontVariation) ∈ r.variationSettings ∧
      r.variationSettings.filter (fun x => decide (x.axisTag = tag))
        = [⟨tag, clamp v e.minValue e.maxValue⟩] := by
  refine ⟨_, merge_valid fvar baseVS targetVS baseStyle targetStyle hB hT, ?_⟩
  exact specMerge_entry (specChoice_of_base hB hv hnt) he (by simp)

/-- Witness of C3: table `{ABCD:[0,100,50]}`, base `'ABCD' 0`, empty target; the call evaluates
to `'ABCD' 0`.  With table `{wght, ital}`, base `'ital' 0` and an italic target style the base
value also beats the style-implied `'ital' 1`. -/
theorem C3_base_preservation_witness :
    ValidVS vsABCD0 ∧ ValidVS ([] : VariationSettings) ∧
      merge fvarABCD vsABCD0 [] REGULAR REGULAR = some ⟨some false, false, [⟨TAG_ABCD, 0⟩]⟩ ∧
      (merge fvarWghtItal [⟨TAG_ital, 0⟩] [] REGULAR ITALIC).map FontFakery.variationSettings
        = some [⟨TAG_ital, 0⟩] ∧
      ∃ r, merge fvarABCD vsABCD0 [] REGULAR REGULAR = some r ∧
        (⟨TAG_ABCD, clamp 0 0 100⟩ : FontVariation) ∈ r.variationSettings ∧
        r.variationSettings.filter (fun x => decide (x.axisTag = TAG_ABCD))
          = [⟨TAG_ABCD, clamp 0 0 100⟩] :=
  ⟨by decide, by decide, by decide, by decide,
    C3_base_preservation fvarABCD vsABCD0 [] REGULAR REGULAR (by decide) (by decide)
      TAG_ABCD 0 ⟨0, 100, 50⟩ (by decide) (by decide) (by decide)⟩

/-- C4, the code at the inputs of the two test assertions: with an empty target set and equal
styles `merge` re-emits the base entries (`'ABCD' 0`, respectively `'ital' 1`), where the tests
assert empty settings. -/
theorem C4_empty_target_reemits_base :
    (merge fvarABCD vsABCD0 [] REGULAR REGULAR).map FontFakery.variationSettings
        = some [⟨TAG_ABCD, 0⟩] ∧
      (merge fvarWghtItal vsItal1 [] REGULAR REGULAR).map FontFakery.variationSettings
        = some [⟨TAG_ital, 1⟩] := by
  constructor <;> decide

/-- C5 (unsupported-axis elision): `merge` returns a result whenever no tag of base or target is
the sentinel, and on every input on which it returns, every tag of the merged settings has an
entry in the axis table; equivalently a tag absent from the table does not occur in the result,
whichever of base and target supplied it. -/
theorem C5_unsupported_axis_elision (fvar : FVarTable) (baseVS targetVS : VariationSettings)
    (baseStyle targetStyle : FontStyle) :
    (NoSentinel baseVS → NoSentinel targetVS →
        ∃ r, merge fvar baseVS targetVS baseStyle targetStyle = some r) ∧
      ∀ r, merge fvar baseVS targetVS baseStyle targetStyle = some r →
        (∀ x ∈ r.variationSettings, ∃ e, fvar x.axisTag = some e) ∧
        (∀ tag, fvar tag = none → ∀ x ∈ r.variationSettings, x.axisTag ≠ tag) := by
  refine ⟨merge_total fvar baseVS targetVS baseStyle targetStyle, ?_⟩
  intro r hr
  obtain ⟨out, hvs, _, _, hout⟩ := merge_sound hr
  have key : ∀ x ∈ r.variationSettings, ∃ e, fvar x.axisTag = some e := by
    intro x hx
    rw [hvs] at hx
    obtain ⟨e, _, he, _⟩ := hout x (mem_of_mem_ofBuffer hx)
    exact ⟨e, he⟩
  refine ⟨key, ?_⟩
  intro tag htag x hx hxt
  obtain ⟨e, he⟩ := key x hx
  rw [hxt, htag] at he
  cases he

/-- Witness of C5: table `{wght, slnt}`, base `'wght' 650`, target `'wght' 750, 'ABCD' 75`,
upright to italic: the call returns `'slnt' -10, 'wght' 750`, without `ABCD`. -/
theorem C5_unsupported_axis_elision_witness :
    fvarWghtSlnt TAG_ABCD = none ∧
      merge fvarWghtSlnt vsWght650 vsABCD75Wght750 REGULAR ITALIC
        = some ⟨some false, false, [⟨TAG_slnt, -10⟩, ⟨TAG_wght, 750⟩]⟩ ∧
      ∀ x ∈ ([⟨TAG_slnt, -10⟩, ⟨TAG_wght, 750⟩] : VariationSettings), x.axisTag ≠ TAG_ABCD :=
  ⟨by decide, by decide,
    ((C5_unsupported_axis_elision fvarWghtSlnt vsWght650 vsABCD75Wght750 REGULAR ITALIC).2
      ⟨some false, false, [⟨TAG_slnt, -10⟩, ⟨TAG_wght, 750⟩]⟩ (by decide)).2 TAG_ABCD
      (by decide)⟩

/-- C6 (clamping), as the code has it: for every axis table whose entries all satisfy
`min ≤ max` and every base set, target set and pair of styles, `merge` returns a result whenever
no tag is the sentinel; every entry `(tag, x)` of a result is `std::clamp` of a value `v` that
base, target or the style-implied list holds for `tag`, it satisfies `min(tag) ≤ x ≤ max(tag)`
whenever `v` is not NaN (equivalently, whenever `x` is not NaN), and it is NaN when `v` is NaN;
on valid input a value that is chosen for a tag, is not elided and lies inside the range already
is emitted unchanged, and a NaN chosen for a tag of the table is emitted as NaN. -/
theorem C6_clamping (fvar : FVarTable) (baseVS targetVS : VariationSettings)
    (baseStyle targetStyle : FontStyle)
    (hM : ∀ tag e, fvar tag = some e → e.minValue ≤ e.maxValue) :
    (NoSentinel baseVS → NoSentinel targetVS →
        ∃ r, merge fvar baseVS targetVS baseStyle targetStyle = some r) ∧
      (∀ r, merge fvar baseVS targetVS baseStyle targetStyle = some r →
        ∀ x ∈ r.variationSettings,
          ∃ e v, fvar x.axisTag = some e ∧
            ((⟨x.axisTag, v⟩ : FontVariation) ∈ baseVS
              ∨ (⟨x.axisTag, v⟩ : FontVariation) ∈ targetVS
              ∨ (⟨x.axisTag, v⟩ : FontVariation) ∈ styleVars fvar targetStyle) ∧
            x.value = clamp v e.minValue e.maxValue ∧
            (v ≠ FloatVal.nan → e.minValue ≤ x.value ∧ x.value ≤ e.maxValue) ∧
            (x.value ≠ FloatVal.nan → e.minValue ≤ x.value ∧ x.value ≤ e.maxValue) ∧
            (v = FloatVal.nan → x.value = FloatVal.nan)) ∧
      (ValidVS baseVS → ValidVS targetVS →
        ∀ tag v fromStyle e,
          specChoice baseVS targetVS (styleVars fvar targetStyle) tag = some (v, fromStyle) →
          fvar tag = some e → ¬ (fromStyle = true ∧ v = e.defValue) →
          e.minValue ≤ v → v ≤ e.maxValue →
          ∃ r, merge fvar baseVS targetVS baseStyle targetStyle = some r ∧
            (⟨tag, v⟩ : FontVariation) ∈ r.variationSettings) ∧
      (ValidVS baseVS → ValidVS targetVS →
        ∀ tag fromStyle e,
          specChoice baseVS targetVS (styleVars fvar targetStyle) tag
            = some (FloatVal.nan, fromStyle) →
          fvar tag = some e →
          ∃ r, merge fvar baseVS targetVS baseStyle targetStyle = some r ∧
            (⟨tag, FloatVal.nan⟩ : FontVariation) ∈ r.variationSettings) := by
  refine ⟨merge_total fvar baseVS targetVS baseStyle targetStyle, ?_, ?_, ?_⟩
  · intro r hr x hx
    obtain ⟨out, hvs, _, _, hout⟩ := merge_sound hr
    rw [hvs] at hx
    obtain ⟨e, v, he, hval, horig⟩ := hout x (mem_of_mem_ofBuffer hx)
    have hnan := clamp_eq_nan_iff (v := v) (hM _ e he)
    refine ⟨e, v, he, horig, hval, ?_, ?_, ?_⟩
    · intro hv
      rw [hval]
      exact clamp_bounds (hM _ e he) hv
    · intro hx'
      rw [hval] at hx' ⊢
      exact clamp_bounds (hM _ e he) (fun hv => hx' (hnan.2 hv))
    · intro hv
      rw [hval]
      exact hnan.2 hv
  · intro hB hT tag v fromStyle e hc he hd h1 h2
    refine ⟨_, merge_valid fvar baseVS targetVS baseStyle targetStyle hB hT, ?_⟩
    have hd' : ¬ ((v, fromStyle).2 = true ∧ FloatVal.feq (v, fromStyle).1 e.defValue = true) := by
      rintro ⟨hs, hf⟩
      exact hd ⟨hs, ((FloatVal.feq_eq_true_iff _ _).1 hf).2⟩
    have := (specMerge_entry hc he hd').1
    rwa [show clamp (v, fromStyle).1 e.minValue e.maxValue = v from clamp_of_mem h1 h2] at this
  · intro hB hT tag fromStyle e hc he
    refine ⟨_, merge_valid fvar baseVS targetVS baseStyle targetStyle hB hT, ?_⟩
    have hd' : ¬ ((FloatVal.nan, fromStyle).2 = true ∧
        FloatVal.feq (FloatVal.nan, fromStyle).1 e.defValue = true) := by
      rintro ⟨_, hf⟩
      rw [FloatVal.feq_nan_left] at hf
      cases hf
    have := (specMerge_entry hc he hd').1
    rwa [show clamp (FloatVal.nan, fromStyle).1 e.minValue e.maxValue = FloatVal.nan from
      clamp_nan _ _] at this

/-- Witness of C6: table `{ABCD:[0,100,50]}`; target `'ABCD' 150` is clamped to `100`, target
`'ABCD' 100`, already inside the range, is emitted unchanged, and a NaN target value is emitted
as NaN. -/
theorem C6_clamping_witness :
    (∀ tag e, fvarABCD tag = some e → e.minValue ≤ e.maxValue) ∧
      merge fvarABCD [] vsABCD150 REGULAR REGULAR
        = some ⟨some false, false, [⟨TAG_ABCD, 100⟩]⟩ ∧
      (∀ x ∈ ([⟨TAG_ABCD, 100⟩] : VariationSettings),
        ∃ e v, fvarABCD x.axisTag = some e ∧
          ((⟨x.axisTag, v⟩ : FontVariation) ∈ ([] : VariationSettings)
            ∨ (⟨x.axisTag, v⟩ : FontVariation) ∈ vsABCD150
            ∨ (⟨x.axisTag, v⟩ : FontVariation) ∈ styleVars fvarABCD REGULAR) ∧
          x.value = clamp v e.minValue e.maxValue ∧
          (v ≠ FloatVal.nan → e.minValue ≤ x.value ∧ x.value ≤ e.maxValue) ∧
          (x.value ≠ FloatVal.nan → e.minValue ≤ x.value ∧ x.value ≤ e.maxValue) ∧
          (v = FloatVal.nan → x.value = FloatVal.nan)) ∧
      (∃ r, merge fvarABCD [] vsABCD100 REGULAR REGULAR = some r ∧
        (⟨TAG_ABCD, 100⟩ : FontVariation) ∈ r.variationSettings) ∧
      ∃ r, merge fvarABCD [] vsABCDNaN REGULAR REGULAR = some r ∧
        (⟨TAG_ABCD, FloatVal.nan⟩ : FontVariation) ∈ r.variationSettings := by
  have hM : ∀ tag e, fvarABCD tag = some e → e.minValue ≤ e.maxValue := by
    intro tag e h
    unfold fvarABCD tableOf at h
    simp only [List.lookup] at h
    split at h
    · obtain rfl := Option.some.inj h
      decide
    · cases h
  have h := C6_clamping fvarABCD [] vsABCD150 REGULAR REGULAR hM
  have h' := C6_clamping fvarABCD [] vsABCD100 REGULAR REGULAR hM
  have h'' := C6_clamping fvarABCD [] vsABCDNaN REGULAR REGULAR hM
  exact ⟨hM, by decide, h.2.1 ⟨some false, false, [⟨TAG_ABCD, 100⟩]⟩ (by decide),
    h'.2.2.1 (by decide) (by decide) TAG_ABCD 100 false ⟨0, 100, 50⟩ (by decide) (by decide)
      (by decide) (by decide) (by decide),
    h''.2.2.2 (by decide) (by decide) TAG_ABCD false ⟨0, 100, 50⟩ (by decide) (by decide)⟩

/-- C6 as first stated fails: with table `{ABCD:[0,100,50]}` (where `min ≤ max`) and target
`'ABCD' nan`, `std::clamp` returns the NaN it is given and `merge` emits `'ABCD' nan`, an entry
that does not satisfy `min ≤ v ≤ max`. -/
theorem C6_clamping_fails_on_nan :
    (∀ tag e, fvarABCD tag = some e → e.minValue ≤ e.maxValue) ∧
      merge fvarABCD [] vsABCDNaN REGULAR REGULAR
        = some ⟨some false, false, [⟨TAG_ABCD, FloatVal.nan⟩]⟩ ∧
      ¬ (∀ r, merge fvarABCD [] vsABCDNaN REGULAR REGULAR = some r →
          ∀ x ∈ r.variationSettings,
            ∃ e, fvarABCD x.axisTag = some e ∧ e.minValue ≤ x.value ∧ x.value ≤ e.maxValue) := by
  refine ⟨?_, by decide, ?_⟩
  · intro tag e h
    unfold fvarABCD tableOf at h
    simp only [List.lookup] at h
    split at h
    · obtain rfl := Option.some.inj h
      decide
    · cases h
  · intro h
    obtain ⟨e, _, h1, _⟩ := h ⟨some false, false, [⟨TAG_ABCD, FloatVal.nan⟩]⟩ (by decide)
      ⟨TAG_ABCD, FloatVal.nan⟩ (List.mem_singleton.2 rfl)
    exact FloatVal.not_le_nan _ h1

/-- C7 (sort invariant): for every axis table, every pair of styles and every valid base and
target set, `merge` returns a result, the tags of the merged settings are strictly ascending,
hence without repetition, and the settings are the output buffer itself: the constructor has
nothing left to sort or dedup. -/
theorem C7_sort_invariant (fvar : FVarTable) (baseVS targetVS : VariationSettings)
    (baseStyle targetStyle : FontStyle) (hB : ValidVS baseVS) (hT : ValidVS targetVS) :
    ∃ st r, mergeLoopResult fvar baseVS targetVS targetStyle = some st ∧
      merge fvar baseVS targetVS baseStyle targetStyle = some r ∧
      (r.variationSettings.map FontVariation.axisTag).Sorted (· < ·) ∧
      (r.variationSettings.map FontVariation.axisTag).Nodup ∧
      r.variationSettings = st.adjustedVars := by
  obtain ⟨st, hst, hacc, _⟩ := mergeLoopResult_valid fvar baseVS targetVS targetStyle hB hT
  refine ⟨st, _, hst, merge_valid fvar baseVS targetVS baseStyle targetStyle hB hT, ?_, ?_, ?_⟩
  · exact specOut_sorted _ _ _ _
  · exact (specOut_sorted fvar baseVS targetVS (styleVars fvar targetStyle)).nodup
  · exact hacc.symm

/-- Witness of C7 on `testMerge_complex`. -/
theorem C7_sort_invariant_witness :
    ValidVS vsWght650 ∧ ValidVS vsABCD75Wght750 ∧
      ∃ st r, mergeLoopResult fvarComplex vsWght650 vsABCD75Wght750 ITALIC = some st ∧
        merge fvarComplex vsWght650 vsABCD75Wght750 REGULAR ITALIC = some r ∧
        (r.variationSettings.map FontVariation.axisTag).Sorted (· < ·) ∧
        (r.variationSettings.map FontVariation.axisTag).Nodup ∧
        r.variationSettings = st.adjustedVars :=
  ⟨by decide, by decide,
    C7_sort_invariant fvarComplex vsWght650 vsABCD75Wght750 REGULAR ITALIC
      (by decide) (by decide)⟩

/-- C8 (style-default elision): on every valid input `merge` returns a result such that, for every
tag `t` of the style-implied list that is in neither base nor target, the table has an entry for
`t`, the merged settings contain an entry for `t` if and only if the style-implied value differs
from the default of `t`, and such an entry carries the style-implied value clamped into
`[min, max]`; whereas a value equal to the default that target supplies, or that base supplies
for a tag absent from target, is still emitted. -/
theorem C8_style_default_elision (fvar : FVarTable) (baseVS targetVS : VariationSettings)
    (baseStyle targetStyle : FontStyle) (hB : ValidVS baseVS) (hT : ValidVS targetVS) :
    ∃ r, merge fvar baseVS targetVS baseStyle targetStyle = some r ∧
      (∀ t sv, (⟨t, sv⟩ : FontVariation) ∈ styleVars fvar targetStyle →
        (∀ x ∈ baseVS, x.axisTag ≠ t) → (∀ x ∈ targetVS, x.axisTag ≠ t) →
        ∃ e, fvar t = some e ∧
          ((∃ x ∈ r.variationSettings, x.axisTag = t) ↔ sv ≠ e.defValue) ∧
          (∀ x ∈ r.variationSettings, x.axisTag = t →
            x.value = clamp sv e.minValue e.maxValue)) ∧
      (∀ t e, fvar t = some e →
        ((⟨t, e.defValue⟩ : FontVariation) ∈ targetVS ∨
          ((⟨t, e.defValue⟩ : FontVariation) ∈ baseVS ∧ ∀ x ∈ targetVS, x.axisTag ≠ t)) →
        (⟨t, clamp e.defValue e.minValue e.maxValue⟩ : FontVariation)
          ∈ r.variationSettings) := by
  refine ⟨_, merge_valid fvar baseVS targetVS baseStyle targetStyle hB hT, ?_, ?_⟩
  · intro t sv hsv hnb hnt
    obtain ⟨e, he⟩ := styleVars_supported hsv
    have hnan : sv ≠ FloatVal.nan := styleVars_value_ne_nan hsv
    have hl : lookupVar (styleVars fvar targetStyle) t = some sv :=
      lookupVar_of_mem (validVS_styleVars fvar targetStyle) hsv
    have hc : specChoice baseVS targetVS (styleVars fvar targetStyle) t = some (sv, true) :=
      specChoice_of_style hl hnb hnt
    have hentry : ∀ x ∈ specMerge fvar baseVS targetVS targetStyle, x.axisTag = t →
        sv ≠ e.defValue ∧ x = ⟨t, clamp sv e.minValue e.maxValue⟩ := by
      intro x hx hxt
      unfold specMerge at hx
      rw [mem_specOut, hxt] at hx
      simp only [specEntry, hc, Option.some_bind] at hx
      obtain ⟨e', he', hd, rfl⟩ := specFilter_eq_some hx
      have he0 : fvar t = some e := he
      rw [he0] at he'
      obtain rfl := Option.some.inj he'
      exact ⟨fun h => hd ⟨rfl, (FloatVal.feq_eq_true_iff _ _).2 ⟨hnan, h⟩⟩, rfl⟩
    refine ⟨e, he, ⟨?_, ?_⟩, ?_⟩
    · rintro ⟨x, hx, hxt⟩
      exact (hentry x hx hxt).1
    · intro hne
      exact ⟨_, (specMerge_entry hc he
        (fun h => hne ((FloatVal.feq_eq_true_iff _ _).1 h.2).2)).1, rfl⟩
    · intro x hx hxt
      rw [(hentry x hx hxt).2]
  · intro t e he h
    rcases h with h | ⟨h, hnt⟩
    · exact (specMerge_entry (specChoice_of_target hT h) he (by simp)).1
    · exact (specMerge_entry (specChoice_of_base hB h hnt) he (by simp)).1

/-- Witness of C8: table `{wght:[100,900,400], ital:[0,1,0]}` with empty sets gives empty settings
for REGULAR to REGULAR and `'wght' 100` for REGULAR to THIN; table `{ABCD:[0,100,50]}` with target
`'ABCD' 50` gives `'ABCD' 50`. -/
theorem C8_style_default_elision_witness :
    merge fvarWghtItal [] [] REGULAR REGULAR = some ⟨none, false, []⟩ ∧
      merge fvarWghtItal [] [] REGULAR THIN = some ⟨some false, false, [⟨TAG_wght, 100⟩]⟩ ∧
      merge fvarABCD [] vsABCD50 REGULAR REGULAR
        = some ⟨some false, false, [⟨TAG_ABCD, 50⟩]⟩ ∧
      ValidVS ([] : VariationSettings) ∧ ValidVS vsABCD50 ∧
      ∃ r, merge fvarABCD [] vsABCD50 REGULAR REGULAR = some r ∧
        (∀ t sv, (⟨t, sv⟩ : FontVariation) ∈ styleVars fvarABCD REGULAR →
          (∀ x ∈ ([] : VariationSettings), x.axisTag ≠ t) →
          (∀ x ∈ vsABCD50, x.axisTag ≠ t) →
          ∃ e, fvarABCD t = some e ∧
            ((∃ x ∈ r.variationSettings, x.axisTag = t) ↔ sv ≠ e.defValue) ∧
            (∀ x ∈ r.variationSettings, x.axisTag = t →
              x.value = clamp sv e.minValue e.maxValue)) ∧
        (∀ t e, fvarABCD t = some e →
          ((⟨t, e.defValue⟩ : FontVariation) ∈ vsABCD50 ∨
            ((⟨t, e.defValue⟩ : FontVariation) ∈ ([] : VariationSettings) ∧
              ∀ x ∈ vsABCD50, x.axisTag ≠ t)) →
          (⟨t, clamp e.defValue e.minValue e.maxValue⟩ : FontVariation)
            ∈ r.variationSettings) :=
  ⟨by decide, by decide, by decide, by decide, by decide,
    C8_style_default_elision fvarABCD [] vsABCD50 REGULAR REGULAR (by decide) (by decide)⟩

/-- C9 (italic style is mapped to one axis, slant first): with empty base and target sets and an
italic target style `merge` returns a result such that, if the table has a `slnt` entry, the
settings contain `slnt` (once) with `-10` clamped into the `slnt` range unless `-10` is the `slnt`
default, in which case they contain no `slnt` entry, and they contain no `ital` entry, also when
the table has one; and if the table has no `slnt` entry but an `ital` entry, the settings contain
`ital` (once) with `1` clamped into the `ital` range unless `1` is the `ital` default, in which
case they contain no `ital` entry. -/
theorem C9_italic_slant_first (fvar : FVarTable) (baseStyle targetStyle : FontStyle)
    (hI : targetStyle.slant = Slant.ITALIC) :
    ∃ r, merge fvar [] [] baseStyle targetStyle = some r ∧
      (∀ e, fvar TAG_slnt = some e →
        (e.defValue ≠ -10 →
          r.variationSettings.filter (fun x => decide (x.axisTag = TAG_slnt))
            = [⟨TAG_slnt, clamp (-10) e.minValue e.maxValue⟩]) ∧
        (e.defValue = -10 → ∀ x ∈ r.variationSettings, x.axisTag ≠ TAG_slnt) ∧
        (∀ x ∈ r.variationSettings, x.axisTag ≠ TAG_ital)) ∧
      (fvar TAG_slnt = none → ∀ e, fvar TAG_ital = some e →
        (e.defValue ≠ 1 →
          r.variationSettings.filter (fun x => decide (x.axisTag = TAG_ital))
            = [⟨TAG_ital, clamp 1 e.minValue e.maxValue⟩]) ∧
        (e.defValue = 1 → ∀ x ∈ r.variationSettings, x.axisTag ≠ TAG_ital)) := by
  refine ⟨_, merge_valid fvar [] [] baseStyle targetStyle validVS_nil validVS_nil, ?_, ?_⟩
  · intro e he
    obtain ⟨h1, h2⟩ := lookupVar_styleVars_slnt he hI
    have hc : specChoice [] [] (styleVars fvar targetStyle) TAG_slnt = some (-10, true) :=
      specChoice_of_style h1 (by simp) (by simp)
    refine ⟨?_, ?_, ?_⟩
    · intro hd
      exact (specMerge_entry hc he
        (fun h => hd ((FloatVal.feq_eq_true_iff _ _).1 h.2).2.symm)).2
    · intro hd
      apply specMerge_no_entry
      simp only [specEntry, hc, Option.some_bind]
      exact (specFilter_style he (by decide)).1 hd.symm
    · apply specMerge_no_entry
      have h0 : lookupVar ([] : List FontVariation) TAG_ital = none := rfl
      simp only [specEntry, specChoice, h0, h2, Option.map_none', Option.none_bind]
  · intro hs e he
    have h1 := lookupVar_styleVars_ital hs he hI
    have hc : specChoice [] [] (styleVars fvar targetStyle) TAG_ital = some (1, true) :=
      specChoice_of_style h1 (by simp) (by simp)
    refine ⟨?_, ?_⟩
    · intro hd
      exact (specMerge_entry hc he
        (fun h => hd ((FloatVal.feq_eq_true_iff _ _).1 h.2).2.symm)).2
    · intro hd
      apply specMerge_no_entry
      simp only [specEntry, hc, Option.some_bind]
      exact (specFilter_style he (by decide)).1 hd.symm

/-- Witness of C9: table `{wght, slnt:[-10,0,0]}` REGULAR to ITALIC gives `'slnt' -10`; table
`{wght, ital:[0,1,0]}` gives `'ital' 1`; a table with both `slnt` and `ital` gives `'slnt' -10`
only. -/
theorem C9_italic_slant_first_witness :
    ITALIC.slant = Slant.ITALIC ∧
      (merge fvarWghtSlnt [] [] REGULAR ITALIC).map FontFakery.variationSettings
        = some [⟨TAG_slnt, -10⟩] ∧
      (merge fvarWghtItal [] [] REGULAR ITALIC).map FontFakery.variationSettings
        = some [⟨TAG_ital, 1⟩] ∧
      (merge fvarSlntItal [] [] REGULAR ITALIC).map FontFakery.variationSettings
        = some [⟨TAG_slnt, -10⟩] ∧
      ∃ r, merge fvarSlntItal [] [] REGULAR ITALIC = some r ∧
        (∀ e, fvarSlntItal TAG_slnt = some e →
          (e.defValue ≠ -10 →
            r.variationSettings.filter (fun x => decide (x.axisTag = TAG_slnt))
              = [⟨TAG_slnt, clamp (-10) e.minValue e.maxValue⟩]) ∧
          (e.defValue = -10 → ∀ x ∈ r.variationSettings, x.axisTag ≠ TAG_slnt) ∧
          (∀ x ∈ r.variationSettings, x.axisTag ≠ TAG_ital)) ∧
        (fvarSlntItal TAG_slnt = none → ∀ e, fvarSlntItal TAG_ital = some e →
          (e.defValue ≠ 1 →
            r.variationSettings.filter (fun x => decide (x.axisTag = TAG_ital))
              = [⟨TAG_ital, clamp 1 e.minValue e.maxValue⟩]) ∧
          (e.defValue = 1 → ∀ x ∈ r.variationSettings, x.axisTag ≠ TAG_ital)) :=
  ⟨by decide, by decide, by decide, by decide,
    C9_italic_slant_first fvarSlntItal REGULAR ITALIC (by decide)⟩

/-- C10 (fake bold without a weight axis): for every axis table that has no `wght` entry and every
base set, target set, base style and target style, `merge` returns a result whenever no tag is the
sentinel, and the `fakeBold` of a result is assigned and is true if and only if
`targetStyle.weight ≥ 600` and `targetStyle.weight - baseStyle.weight ≥ 200` as a signed
difference; the variation sets play no role. -/
theorem C10_fake_bold_without_weight_axis (fvar : FVarTable)
    (baseVS targetVS : VariationSettings) (baseStyle targetStyle : FontStyle)
    (hW : fvar TAG_wght = none) :
    (NoSentinel baseVS → NoSentinel targetVS →
        ∃ r, merge fvar baseVS targetVS baseStyle targetStyle = some r) ∧
      ∀ r, merge fvar baseVS targetVS baseStyle targetStyle = some r →
        r.fakeBold = some (decide (targetStyle.weight ≥ 600 ∧
          ((targetStyle.weight : Int) - (baseStyle.weight : Int)) ≥ 200)) := by
  refine ⟨merge_total fvar baseVS targetVS baseStyle targetStyle, ?_⟩
  intro r hr
  obtain ⟨out, _, hfb, _, _⟩ := merge_sound hr
  rw [hfb]
  unfold finalFakeBold FVarTable.count
  rw [hW]
  rfl

/-- Witness of C10 on `testMerge_fakeBold_unsupported_font`: with the empty table, REGULAR to BOLD
and BOLD to BLACK give true, THIN to MEDIUM and BOLD to BOLD give false. -/
theorem C10_fake_bold_without_weight_axis_witness :
    fvarEmpty TAG_wght = none ∧
      merge fvarEmpty [] [] REGULAR BOLD = some ⟨some true, false, []⟩ ∧
      merge fvarEmpty [] [] BOLD BLACK = some ⟨some true, false, []⟩ ∧
      merge fvarEmpty [] [] THIN MEDIUM = some ⟨some false, false, []⟩ ∧
      merge fvarEmpty [] [] BOLD BOLD = some ⟨some false, false, []⟩ ∧
      (⟨some true, false, []⟩ : FontFakery).fakeBold
        = some (decide (BOLD.weight ≥ 600 ∧
            ((BOLD.weight : Int) - (REGULAR.weight : Int)) ≥ 200)) :=
  ⟨by decide, by decide, by decide, by decide, by decide,
    (C10_fake_bold_without_weight_axis fvarEmpty [] [] REGULAR BOLD (by decide)).2
      ⟨some true, false, []⟩ (by decide)⟩

/-! ## The fake-bold local -/

theorem foldBold_cons (targetStyle : FontStyle) (init : Option Bool) (x : FontVariation)
    (l : List FontVariation) :
    foldBold targetStyle init (x :: l)
      = foldBold targetStyle
          (if x.axisTag = TAG_wght then some (boldRule targetStyle x.value) else init) l := rfl

theorem foldBold_no_wght (targetStyle : FontStyle) (l : List FontVariation) :
    ∀ init : Option Bool, (∀ x ∈ l, x.axisTag ≠ TAG_wght) →
      foldBold targetStyle init l = init := by
  induction l with
  | nil => intro init _; rfl
  | cons y l ih =>
    intro init h
    rw [foldBold_cons, if_neg (h y (List.mem_cons_self _ _))]
    exact ih init (fun x hx => h x (List.mem_cons_of_mem _ hx))

theorem foldBold_of_mem (targetStyle : FontStyle) (l : List FontVariation) :
    ∀ init : Option Bool, (l.map FontVariation.axisTag).Sorted (· < ·) →
      ∀ w, (⟨TAG_wght, w⟩ : FontVariation) ∈ l →
        foldBold targetStyle init l = some (boldRule targetStyle w) := by
  induction l with
  | nil => intro init _ w hw; cases hw
  | cons y l ih =>
    intro init hs w hw
    simp only [List.map_cons, List.sorted_cons, List.mem_map, forall_exists_index, and_imp,
      forall_apply_eq_imp_iff₂] at hs
    rw [foldBold_cons]
    rcases List.mem_cons.1 hw with rfl | hw
    · rw [if_pos rfl]
      apply foldBold_no_wght
      intro x hx
      have := hs.1 x hx
      simp only at this
      omega
    · have := hs.1 _ hw
      simp only at this
      rw [if_neg (by omega)]
      exact ih init hs.2 w hw

theorem mem_styleVars_wght {fvar : FVarTable} (targetStyle : FontStyle) {e : FVarEntry}
    (he : fvar TAG_wght = some e) :
    (⟨TAG_wght, (targetStyle.weight : FloatVal)⟩ : FontVariation) ∈ styleVars fvar targetStyle := by
  unfold styleVars FVarTable.count
  rw [he]
  simp

theorem finalFakeBold_of_wght {fvar : FVarTable} (baseStyle targetStyle : FontStyle)
    {e : FVarEntry} (he : fvar TAG_wght = some e) (fb : Option Bool) :
    finalFakeBold fvar baseStyle targetStyle fb = fb := by
  unfold finalFakeBold FVarTable.count
  rw [he]
  rfl

theorem specEntry_wght {fvar : FVarTable} {baseVS targetVS : VariationSettings}
    (targetStyle : FontStyle) (hB : ValidVS baseVS) (hT : ValidVS targetVS) {e : FVarEntry}
    (he : fvar TAG_wght = some e) :
    specEntry fvar baseVS targetVS (styleVars fvar targetStyle) TAG_wght = none ↔
      (∀ x ∈ baseVS, x.axisTag ≠ TAG_wght) ∧ (∀ x ∈ targetVS, x.axisTag ≠ TAG_wght) ∧
        (targetStyle.weight : FloatVal) = e.defValue := by
  have hS : lookupVar (styleVars fvar targetStyle) TAG_wght
      = some (targetStyle.weight : FloatVal) :=
    lookupVar_of_mem (validVS_styleVars fvar targetStyle) (mem_styleVars_wght targetStyle he)
  by_cases ht : ∀ x ∈ targetVS, x.axisTag ≠ TAG_wght
  · by_cases hb : ∀ x ∈ baseVS, x.axisTag ≠ TAG_wght
    · have hc := specChoice_of_style hS hb ht
      have hw : (targetStyle.weight : FloatVal) ≠ FloatVal.nan :=
        fun h => FloatVal.noConfusion h
      have hsf := specFilter_style he hw
      simp only [specEntry, hc, Option.some_bind]
      constructor
      · intro h
        refine ⟨hb, ht, ?_⟩
        by_contra hne
        rw [hsf.2 hne] at h
        cases h
      · rintro ⟨_, _, h⟩
        exact hsf.1 h
    · constructor
      · intro h
        exfalso
        simp only [not_forall] at hb
        obtain ⟨x, hx, hxt⟩ := hb
        have hxt' : x.axisTag = TAG_wght := by simpa using hxt
        have hx' : (⟨TAG_wght, x.value⟩ : FontVariation) ∈ baseVS := by rw [← hxt']; exact hx
        have hc : specChoice baseVS targetVS (styleVars fvar targetStyle) TAG_wght
            = some (x.value, false) := specChoice_of_base hB hx' ht
        simp [specEntry, hc, specFilter, he] at h
      · rintro ⟨h, _, _⟩
        exact absurd h hb
  · constructor
    · intro h
      exfalso
      simp only [not_forall] at ht
      obtain ⟨x, hx, hxt⟩ := ht
      have hxt' : x.axisTag = TAG_wght := by simpa using hxt
      have hx' : (⟨TAG_wght, x.value⟩ : FontVariation) ∈ targetVS := by rw [← hxt']; exact hx
      have hc : specChoice baseVS targetVS (styleVars fvar targetStyle) TAG_wght
          = some (x.value, false) := specChoice_of_target hT hx'
      simp [specEntry, hc, specFilter, he] at h
    · rintro ⟨_, h, _⟩
      exact absurd h ht

theorem specMerge_wght_iff {fvar : FVarTable} {baseVS targetVS : VariationSettings}
    (targetStyle : FontStyle) :
    (∀ x ∈ specMerge fvar baseVS targetVS targetStyle, x.axisTag ≠ TAG_wght) ↔
      specEntry fvar baseVS targetVS (styleVars fvar targetStyle) TAG_wght = none := by
  constructor
  · intro h
    cases hs : specEntry fvar baseVS targetVS (styleVars fvar targetStyle) TAG_wght with
    | none => rfl
    | some x =>
      exfalso
      have ht := specEntry_tag hs
      have hx : x ∈ specMerge fvar baseVS targetVS targetStyle := by
        unfold specMerge
        rw [mem_specOut, ht]
        exact hs
      exact h x hx ht
  · exact specMerge_no_entry

/-- C11 (fake bold with a weight axis): for every valid input whose axis table has a `wght` entry,
`merge` returns a result such that, whenever the merged settings contain a `wght` entry with value
`w`, `fakeBold` is assigned and is true if and only if `targetStyle.weight ≥ 600` and
`targetStyle.weight - w ≥ 200`; the base style does not occur in the rule. -/
theorem C11_fake_bold_with_weight_axis (fvar : FVarTable) (baseVS targetVS : VariationSettings)
    (baseStyle targetStyle : FontStyle) (hB : ValidVS baseVS) (hT : ValidVS targetVS)
    (e : FVarEntry) (he : fvar TAG_wght = some e) :
    ∃ r, merge fvar baseVS targetVS baseStyle targetStyle = some r ∧
      ∀ w, (⟨TAG_wght, w⟩ : FontVariation) ∈ r.variationSettings →
        r.fakeBold = some (decide (targetStyle.weight ≥ 600 ∧
          ((targetStyle.weight : FloatVal) - w) ≥ 200)) := by
  refine ⟨_, merge_valid fvar baseVS targetVS baseStyle targetStyle hB hT, ?_⟩
  intro w hw
  simp only [finalFakeBold_of_wght baseStyle targetStyle he]
  exact foldBold_of_mem targetStyle _ none (specOut_sorted _ _ _ _) w hw

/-- Witness of C11 on `testMerge_fakeBold_limited_range_font`: table `{wght:[100,700,400]}`, empty
sets; REGULAR to BLACK emits `'wght' 700` and gives true (`900 - 700 = 200`), REGULAR to BOLD
gives false. -/
theorem C11_fake_bold_with_weight_axis_witness :
    ValidVS ([] : VariationSettings) ∧ fvarWghtLimited TAG_wght = some ⟨100, 700, 400⟩ ∧
      merge fvarWghtLimited [] [] REGULAR BLACK = some ⟨some true, false, [⟨TAG_wght, 700⟩]⟩ ∧
      merge fvarWghtLimited [] [] REGULAR BOLD = some ⟨some false, false, [⟨TAG_wght, 700⟩]⟩ ∧
      ∃ r, merge fvarWghtLimited [] [] REGULAR BLACK = some r ∧
        ∀ w, (⟨TAG_wght, w⟩ : FontVariation) ∈ r.variationSettings →
          r.fakeBold = some (decide (BLACK.weight ≥ 600 ∧ ((BLACK.weight : FloatVal) - w) ≥ 200)) :=
  ⟨by decide, by decide, by decide!, by decide!,
    C11_fake_bold_with_weight_axis fvarWghtLimited [] [] REGULAR BLACK (by decide) (by decide)
      ⟨100, 700, 400⟩ (by decide)⟩

/-- C12, the code on `testMerge_fakeBold_fullrange_font`: with table `{wght:[100,900,400]}` and
empty sets, the target styles THIN, MEDIUM, BOLD, BLACK and BOLD_ITALIC give `fakeBold = false`,
but for REGULAR and ITALIC (weight 400, the `wght` default) no `wght` entry is emitted and
`fakeBold` is never assigned, where the test asserts false. -/
theorem C12_default_weight_leaves_fake_bold_unassigned :
    merge fvarWghtFull [] [] REGULAR REGULAR = some ⟨none, false, []⟩ ∧
      merge fvarWghtFull [] [] REGULAR ITALIC = some ⟨none, true, []⟩ ∧
      (merge fvarWghtFull [] [] REGULAR THIN).map FontFakery.fakeBold = some (some false) ∧
      (merge fvarWghtFull [] [] REGULAR MEDIUM).map FontFakery.fakeBold = some (some false) ∧
      (merge fvarWghtFull [] [] REGULAR BOLD).map FontFakery.fakeBold = some (some false) ∧
      (merge fvarWghtFull [] [] REGULAR BLACK).map FontFakery.fakeBold = some (some false) ∧
      (merge fvarWghtFull [] [] REGULAR BOLD_ITALIC).map FontFakery.fakeBold
        = some (some false) := by
  refine ⟨?_, ?_, ?_, ?_, ?_, ?_, ?_⟩ <;> decide!

/-- C13 (fake-italic gating): `merge` returns a result whenever no tag is the sentinel, and the
`fakeItalic` of a result is true if and only if the target style is italic, the axis table has
neither an `ital` entry nor a `slnt` entry, and the base style is not italic; neither the
variation sets nor the weights occur in the rule. -/
theorem C13_fake_italic_gating (fvar : FVarTable) (baseVS targetVS : VariationSettings)
    (baseStyle targetStyle : FontStyle) :
    (NoSentinel baseVS → NoSentinel targetVS →
        ∃ r, merge fvar baseVS targetVS baseStyle targetStyle = some r) ∧
      ∀ r, merge fvar baseVS targetVS baseStyle targetStyle = some r →
        (r.fakeItalic = true ↔
          targetStyle.slant = Slant.ITALIC ∧ fvar TAG_ital = none ∧ fvar TAG_slnt = none ∧
            baseStyle.slant ≠ Slant.ITALIC) := by
  refine ⟨merge_total fvar baseVS targetVS baseStyle targetStyle, ?_⟩
  intro r hr
  obtain ⟨out, _, _, hfi, _⟩ := merge_sound hr
  rw [hfi]
  unfold fakeItalicOf FontStyle.isItalic FVarTable.count
  cases hi : fvar TAG_ital <;> cases hs : fvar TAG_slnt <;>
    by_cases ht : targetStyle.slant = Slant.ITALIC <;>
    by_cases hb : baseStyle.slant = Slant.ITALIC <;> simp [ht, hb]

/-- Witness of C13 on the fake-italic tests: empty table REGULAR to ITALIC true, ITALIC to ITALIC
false, REGULAR to REGULAR false; tables `{ital}` and `{slnt}` REGULAR to ITALIC false. -/
theorem C13_fake_italic_gating_witness :
    (merge fvarEmpty [] [] REGULAR ITALIC).map FontFakery.fakeItalic = some true ∧
      (merge fvarEmpty [] [] ITALIC ITALIC).map FontFakery.fakeItalic = some false ∧
      (merge fvarEmpty [] [] REGULAR REGULAR).map FontFakery.fakeItalic = some false ∧
      (merge fvarItal [] [] REGULAR ITALIC).map FontFakery.fakeItalic = some false ∧
      (merge fvarSlnt [] [] REGULAR ITALIC).map FontFakery.fakeItalic = some false ∧
      ((⟨some false, true, []⟩ : FontFakery).fakeItalic = true ↔
        ITALIC.slant = Slant.ITALIC ∧ fvarEmpty TAG_ital = none ∧ fvarEmpty TAG_slnt = none ∧
          REGULAR.slant ≠ Slant.ITALIC) :=
  ⟨by decide, by decide, by decide, by decide, by decide,
    (C13_fake_italic_gating fvarEmpty [] [] REGULAR ITALIC).2 ⟨some false, true, []⟩
      (by decide)⟩

/-- C14 (`FontVariation` comparisons): for all `a` and `b`, `a < b`, `a > b`, `a <= b` and
`a >= b` hold exactly when the same relation holds between the tags (the value is ignored), so
exactly one of `a < b`, `b < a` and equal tags holds and `a <= b` is the negation of `a > b`;
`a == b` holds exactly when tag and value are both equal, the values compared as `float`s (so a
NaN value equals nothing), and `a != b` is its negation; hence two variations with the same tag
and different values are neither `<` nor `>` each other and are not `==`. -/
theorem C14_font_variation_comparisons (a b : FontVariation) :
    (FontVariation.operatorLt a b = true ↔ a.axisTag < b.axisTag) ∧
      (FontVariation.operatorGt a b = true ↔ a.axisTag > b.axisTag) ∧
      (FontVariation.operatorLe a b = true ↔ a.axisTag ≤ b.axisTag) ∧
      (FontVariation.operatorGe a b = true ↔ a.axisTag ≥ b.axisTag) ∧
      ((FontVariation.operatorLt a b = true ∧ FontVariation.operatorLt b a = false ∧
          a.axisTag ≠ b.axisTag) ∨
        (FontVariation.operatorLt a b = false ∧ FontVariation.operatorLt b a = true ∧
          a.axisTag ≠ b.axisTag) ∨
        (FontVariation.operatorLt a b = false ∧ FontVariation.operatorLt b a = false ∧
          a.axisTag = b.axisTag)) ∧
      FontVariation.operatorLe a b = !(FontVariation.operatorGt a b) ∧
      (FontVariation.operatorEq a b = true ↔
        a.axisTag = b.axisTag ∧ FloatVal.feq a.value b.value = true) ∧
      (FontVariation.operatorEq a b = true ↔
        a.axisTag = b.axisTag ∧ a.value = b.value ∧ a.value ≠ FloatVal.nan) ∧
      FontVariation.operatorNe a b = !(FontVariation.operatorEq a b) ∧
      (a.axisTag = b.axisTag → a.value ≠ b.value →
        FontVariation.operatorLt a b = false ∧ FontVariation.operatorGt a b = false ∧
          FontVariation.operatorEq a b = false) := by
  unfold FontVariation.operatorLt FontVariation.operatorGt FontVariation.operatorLe
    FontVariation.operatorGe FontVariation.operatorEq FontVariation.operatorNe
  refine ⟨by simp, by simp, by simp, by simp, ?_, ?_, by simp, ?_, rfl, ?_⟩
  · simp only [decide_eq_true_eq, decide_eq_false_iff_not]
    omega
  · by_cases h : a.axisTag ≤ b.axisTag
    · have h' : ¬ a.axisTag > b.axisTag := by omega
      simp [h, h']
    · have h' : a.axisTag > b.axisTag := by omega
      simp [h, h']
  · simp only [Bool.and_eq_true, decide_eq_true_eq, FloatVal.feq_eq_true_iff]
    tauto
  · intro ht hv
    have hf : FloatVal.feq a.value b.value = false := by
      cases hfe : FloatVal.feq a.value b.value with
      | false => rfl
      | true => exact absurd ((FloatVal.feq_eq_true_iff _ _).1 hfe).2 hv
    simp only [decide_eq_false_iff_not, Bool.and_eq_false_imp, decide_eq_true_eq]
    refine ⟨by omega, by omega, fun _ => hf⟩

/-- Witness of C14: `'wght' 400` and `'wght' 700` are neither `<` nor `>` each other and are not
`==`. -/
theorem C14_font_variation_comparisons_witness :
    FontVariation.operatorLt ⟨TAG_wght, 400⟩ ⟨TAG_wght, 700⟩ = false ∧
      FontVariation.operatorGt ⟨TAG_wght, 400⟩ ⟨TAG_wght, 700⟩ = false ∧
      FontVariation.operatorEq ⟨TAG_wght, 400⟩ ⟨TAG_wght, 700⟩ = false :=
  (C14_font_variation_comparisons ⟨TAG_wght, 400⟩ ⟨TAG_wght, 700⟩).2.2.2.2.2.2.2.2.2
    rfl (by decide)

/-- C15 (`Range` is half-open): `contains(pos)` is true if and only if `start ≤ pos` and
`pos < end`; for `Range(1, 2)`, `contains(0)` is false, `contains(1)` is true and `contains(2)` is
false; and an empty range (`start == end`) contains no position. -/
theorem C15_range_contains_half_open (r : Range) (pos : Nat) :
    (r.contains pos = true ↔ r.getStart ≤ pos ∧ pos < r.getEnd) ∧
      (Range.contains ⟨1, 2⟩ 0 = false ∧ Range.contains ⟨1, 2⟩ 1 = true ∧
        Range.contains ⟨1, 2⟩ 2 = false) ∧
      (r.isEmpty = true → r.contains pos = false) := by
  unfold Range.contains Range.getStart Range.getEnd Range.isEmpty
  refine ⟨by simp, ⟨by decide, by decide, by decide⟩, ?_⟩
  intro h
  simp only [decide_eq_true_eq] at h
  simp only [Bool.and_eq_false_imp, decide_eq_true_eq, decide_eq_false_iff_not]
  omega

/-- Witness of C15: the empty range `Range(5, 5)` does not contain its own start. -/
theorem C15_range_contains_half_open_witness :
    Range.isEmpty ⟨5, 5⟩ = true ∧ Range.contains ⟨5, 5⟩ 5 = false :=
  ⟨by decide, (C15_range_contains_half_open ⟨5, 5⟩ 5).2.2 (by decide)⟩

/-- C16 (indeterminate fake bold): on every valid input `merge` returns a result whose `fakeBold`
is assigned if and only if the axis table has no `wght` entry or the merged settings contain a
`wght` entry; it is left unassigned exactly when the table has a `wght` entry, neither base nor
target contains `wght`, and the target style's weight equals the default of the `wght` entry. -/
theorem C16_indeterminate_fake_bold (fvar : FVarTable) (baseVS targetVS : VariationSettings)
    (baseStyle targetStyle : FontStyle) (hB : ValidVS baseVS) (hT : ValidVS targetVS) :
    ∃ r, merge fvar baseVS targetVS baseStyle targetStyle = some r ∧
      (r.fakeBold.isSome = true ↔
        (fvar TAG_wght = none ∨ ∃ x ∈ r.variationSettings, x.axisTag = TAG_wght)) ∧
      (r.fakeBold = none ↔
        ∃ e, fvar TAG_wght = some e ∧ (∀ x ∈ baseVS, x.axisTag ≠ TAG_wght) ∧
          (∀ x ∈ targetVS, x.axisTag ≠ TAG_wght) ∧ (targetStyle.weight : FloatVal) = e.defValue) := by
  refine ⟨_, merge_valid fvar baseVS targetVS baseStyle targetStyle hB hT, ?_⟩
  simp only
  cases he : fvar TAG_wght with
  | none =>
    have hfb : finalFakeBold fvar baseStyle targetStyle
        (foldBold targetStyle none (specMerge fvar baseVS targetVS targetStyle))
        = some (decide (targetStyle.weight ≥ 600 ∧
            ((targetStyle.weight : Int) - (baseStyle.weight : Int)) ≥ 200)) := by
      unfold finalFakeBold FVarTable.count
      rw [he]
      rfl
    rw [hfb]
    simp
  | some e =>
    rw [finalFakeBold_of_wght baseStyle targetStyle he]
    by_cases hx : ∀ x ∈ specMerge fvar baseVS targetVS targetStyle, x.axisTag ≠ TAG_wght
    · have hnone := foldBold_no_wght targetStyle _ none hx
      have hspec := (specEntry_wght targetStyle hB hT he).1 ((specMerge_wght_iff targetStyle).1 hx)
      rw [hnone]
      constructor
      · simp only [Option.isSome_none, Bool.false_eq_true, false_iff, not_or, not_exists,
          not_and]
        exact ⟨by simp, hx⟩
      · simp only [true_iff]
        exact ⟨e, rfl, hspec⟩
    · have hx' := hx
      simp only [not_forall] at hx'
      obtain ⟨x, hxm, hxt⟩ := hx'
      have hxt' : x.axisTag = TAG_wght := by simpa using hxt
      have hmem : (⟨TAG_wght, x.value⟩ : FontVariation)
          ∈ specMerge fvar baseVS targetVS targetStyle := by rw [← hxt']; exact hxm
      have hsome : foldBold targetStyle none (specMerge fvar baseVS targetVS targetStyle)
          = some (boldRule targetStyle x.value) :=
        foldBold_of_mem targetStyle _ none (specOut_sorted _ _ _ _) x.value hmem
      rw [hsome]
      constructor
      · simp only [Option.isSome_some, true_iff]
        exact Or.inr ⟨x, hxm, hxt'⟩
      · constructor
        · intro h
          cases h
        · rintro ⟨e', he', hb, ht, hw⟩
          obtain rfl := Option.some.inj he'
          exact absurd ((specMerge_wght_iff targetStyle).2
            ((specEntry_wght targetStyle hB hT he).2 ⟨hb, ht, hw⟩)) hx

/-- Witness of C16: table `{wght:[100,900,400]}`, empty sets, target style REGULAR (400): the call
returns with `fakeBold` unassigned. -/
theorem C16_indeterminate_fake_bold_witness :
    ValidVS ([] : VariationSettings) ∧
      merge fvarWghtFull [] [] REGULAR REGULAR = some ⟨none, false, []⟩ ∧
      ∃ r, merge fvarWghtFull [] [] REGULAR REGULAR = some r ∧
        (r.fakeBold.isSome = true ↔
          (fvarWghtFull TAG_wght = none ∨ ∃ x ∈ r.variationSettings, x.axisTag = TAG_wght)) ∧
        (r.fakeBold = none ↔
          ∃ e, fvarWghtFull TAG_wght = some e ∧
            (∀ x ∈ ([] : VariationSettings), x.axisTag ≠ TAG_wght) ∧
            (∀ x ∈ ([] : VariationSettings), x.axisTag ≠ TAG_wght) ∧
            (REGULAR.weight : FloatVal) = e.defValue) :=
  ⟨by decide, by decide,
    C16_indeterminate_fake_bold fvarWghtFull [] [] REGULAR REGULAR (by decide) (by decide)⟩

/-- C19 (the style-implied list is a valid merge input): for every axis table and target style
the list has at most two entries, does not contain both `slnt` and `ital`, contains `wght` if and
only if the table has a `wght` entry, is strictly ascending by tag
(`ital` 0x6974616C < `slnt` 0x736C6E74 < `wght` 0x77676874), and every tag is below the
sentinel 0xFFFFFFFF. -/
theorem C19_style_vars_valid (fvar : FVarTable) (targetStyle : FontStyle) :
    (styleVars fvar targetStyle).length ≤ 2 ∧
      ¬ (TAG_slnt ∈ (styleVars fvar targetStyle).map FontVariation.axisTag ∧
          TAG_ital ∈ (styleVars fvar targetStyle).map FontVariation.axisTag) ∧
      (TAG_wght ∈ (styleVars fvar targetStyle).map FontVariation.axisTag ↔
        fvar.count TAG_wght = true) ∧
      ((styleVars fvar targetStyle).map FontVariation.axisTag).Sorted (· < ·) ∧
      (∀ x ∈ styleVars fvar targetStyle, x.axisTag < END) ∧
      (TAG_ital = 0x6974616C ∧ TAG_slnt = 0x736C6E74 ∧ TAG_wght = 0x77676874 ∧
        TAG_ital < TAG_slnt ∧ TAG_slnt < TAG_wght ∧ TAG_wght < END ∧ END = 0xFFFFFFFF) := by
  refine ⟨?_, ?_, ?_, (validVS_styleVars fvar targetStyle).1,
    (validVS_styleVars fvar targetStyle).2, by decide⟩
  · unfold styleVars
    split_ifs <;> simp
  · unfold styleVars
    split_ifs <;> simp [TAG_slnt, TAG_ital, TAG_wght]
  · unfold styleVars
    split_ifs <;> simp_all [TAG_slnt, TAG_ital, TAG_wght]

/-- Witness of C19: for the table with `wght`, `slnt` and `ital` and an italic target the list is
`'slnt' -10, 'wght' 400`. -/
theorem C19_style_vars_valid_witness :
    styleVars fvarSlntItal ITALIC = [⟨TAG_slnt, -10⟩, ⟨TAG_wght, 400⟩] ∧
      (styleVars fvarSlntItal ITALIC).length ≤ 2 :=
  ⟨by decide, (C19_style_vars_valid fvarSlntItal ITALIC).1⟩

/-! ## The run of the loop, iteration by iteration -/

theorem toList_length_le_one {α : Type} (o : Option α) : o.toList.length ≤ 1 := by
  cases o <;> simp

theorem loopBody_step (fvar : FVarTable) {baseVS targetVS sv : List FontVariation}
    (targetStyle : FontStyle) (hB : NoSentinel baseVS) (hT : NoSentinel targetVS)
    (hS : NoSentinel sv) {st : LoopState} (hc : loopCond baseVS targetVS sv st = true) :
    ∃ st', loopBody fvar baseVS targetVS sv targetStyle st = some st' ∧
      (st'.baseIdx = st.baseIdx ∨
        (st'.baseIdx = st.baseIdx + 1 ∧ st.baseIdx < baseVS.length)) ∧
      (st'.targetIdx = st.targetIdx ∨
        (st'.targetIdx = st.targetIdx + 1 ∧ st.targetIdx < targetVS.length)) ∧
      (st'.styleIdx = st.styleIdx ∨
        (st'.styleIdx = st.styleIdx + 1 ∧ st.styleIdx < sv.length)) ∧
      (st'.baseIdx = st.baseIdx + 1 ∨ st'.targetIdx = st.targetIdx + 1
        ∨ st'.styleIdx = st.styleIdx + 1) ∧
      st'.adjustedVars.length ≤ st.adjustedVars.length + 1 := by
  unfold loopCond at hc
  simp only [decide_eq_true_eq] at hc
  have hm : min (tagAt baseVS st.baseIdx) (min (tagAt targetVS st.targetIdx)
      (tagAt sv st.styleIdx)) < END := by
    rcases hc with h | h | h
    · have := tagAt_of_lt hB h; omega
    · have := tagAt_of_lt hT h; omega
    · have := tagAt_of_lt hS h; omega
  unfold loopBody
  rw [pick_eq]
  generalize hmd : min (tagAt baseVS st.baseIdx) (min (tagAt targetVS st.targetIdx)
      (tagAt sv st.styleIdx)) = m at hm
  have b1 : tagAt baseVS st.baseIdx = m → st.baseIdx < baseVS.length :=
    fun h => tagAt_lt_END (by omega)
  have b2 : tagAt targetVS st.targetIdx = m → st.targetIdx < targetVS.length :=
    fun h => tagAt_lt_END (by omega)
  have b3 : tagAt sv st.styleIdx = m → st.styleIdx < sv.length :=
    fun h => tagAt_lt_END (by omega)
  have hsel : ∃ v, (if tagAt targetVS st.targetIdx = m then valueAt targetVS st.targetIdx
      else if tagAt baseVS st.baseIdx = m then valueAt baseVS st.baseIdx
      else valueAt sv st.styleIdx) = some v := by
    split_ifs with h1 h2
    · exact valueAt_of_lt (b2 h1)
    · exact valueAt_of_lt (b1 h2)
    · exact valueAt_of_lt (b3 (by omega))
  obtain ⟨v, hv⟩ := hsel
  rw [hv]
  simp only [Option.map_some', emit_eq]
  refine ⟨_, rfl, ?_, ?_, ?_, ?_, ?_⟩
  · simp only []
    split_ifs with h
    · exact Or.inr ⟨rfl, b1 h⟩
    · exact Or.inl rfl
  · simp only []
    split_ifs with h
    · exact Or.inr ⟨rfl, b2 h⟩
    · exact Or.inl rfl
  · simp only []
    split_ifs with h
    · exact Or.inr ⟨rfl, b3 h⟩
    · exact Or.inl rfl
  · simp only []
    split_ifs <;> omega
  · simp only [List.length_append]
    have := toList_length_le_one (specFilter fvar m
      (v, decide (tagAt sv st.styleIdx < tagAt baseVS st.baseIdx
        ∧ tagAt sv st.styleIdx < tagAt targetVS st.targetIdx)))
    omega

theorem loopCond_false_of_remaining {baseVS targetVS sv : List FontVariation} {st : LoopState}
    (h : remaining baseVS targetVS sv st = 0) : loopCond baseVS targetVS sv st = false := by
  unfold loopCond remaining at *
  simp only [decide_eq_false_iff_not]
  omega

theorem loop_trace (fvar : FVarTable) {baseVS targetVS sv : List FontVariation}
    (targetStyle : FontStyle) (hB : NoSentinel baseVS) (hT : NoSentinel targetVS)
    (hS : NoSentinel sv) :
    ∀ (fuel : Nat) (st : LoopState), remaining baseVS targetVS sv st ≤ fuel →
      InBounds baseVS targetVS sv st →
      ∃ n st', n ≤ remaining baseVS targetVS sv st ∧
        loopIter fvar baseVS targetVS sv targetStyle n st = some st' ∧
        loopCond baseVS targetVS sv st' = false ∧
        mergeLoop fvar baseVS targetVS sv targetStyle fuel st = some st' ∧
        InBounds baseVS targetVS sv st' ∧
        (∀ k, k < n → ∃ stk, loopIter fvar baseVS targetVS sv targetStyle k st = some stk ∧
          loopCond baseVS targetVS sv stk = true) ∧
        (∀ k, k ≤ n → ∃ stk, loopIter fvar baseVS targetVS sv targetStyle k st = some stk ∧
          stk.adjustedVars.length ≤ st.adjustedVars.length + k) := by
  intro fuel
  induction fuel with
  | zero =>
    intro st hr hin
    have hc := loopCond_false_of_remaining (Nat.le_zero.1 hr)
    refine ⟨0, st, Nat.zero_le _, rfl, hc, by simp [mergeLoop, hc], hin, ?_, ?_⟩
    · intro k hk; omega
    · intro k hk
      obtain rfl : k = 0 := by omega
      exact ⟨st, rfl, Nat.le_refl _⟩
  | succ fuel ih =>
    intro st hr hin
    by_cases hc : loopCond baseVS targetVS sv st = true
    · obtain ⟨st1, hb, h1, h2, h3, hadv, hlen⟩ := loopBody_step fvar targetStyle hB hT hS hc
      obtain ⟨i1, i2, i3⟩ := hin
      have hin1 : InBounds baseVS targetVS sv st1 := ⟨by omega, by omega, by omega⟩
      have hrem : remaining baseVS targetVS sv st1 < remaining baseVS targetVS sv st := by
        unfold remaining
        omega
      obtain ⟨n, st2, hn, hiter, hc2, hloop, hin2, hk1, hk2⟩ := ih st1 (by omega) hin1
      refine ⟨n + 1, st2, by omega, ?_, hc2, ?_, hin2, ?_, ?_⟩
      · simp only [loopIter, hb, Option.some_bind]
        exact hiter
      · simp [mergeLoop, hc, hb, hloop]
      · intro k hk
        cases k with
        | zero => exact ⟨st, rfl, hc⟩
        | succ k =>
          obtain ⟨stk, hs, hck⟩ := hk1 k (by omega)
          exact ⟨stk, by simp only [loopIter, hb, Option.some_bind]; exact hs, hck⟩
      · intro k hk
        cases k with
        | zero => exact ⟨st, rfl, Nat.le_refl _⟩
        | succ k =>
          obtain ⟨stk, hs, hl⟩ := hk2 k (by omega)
          exact ⟨stk, by simp only [loopIter, hb, Option.some_bind]; exact hs, by omega⟩
    · have hc' : loopCond baseVS targetVS sv st = false := by simpa using hc
      refine ⟨0, st, Nat.zero_le _, rfl, hc', by simp [mergeLoop, hc'], hin, ?_, ?_⟩
      · intro k hk; omega
      · intro k hk
        obtain rfl : k = 0 := by omega
        exact ⟨st, rfl, Nat.le_refl _⟩

theorem cursors_at_end {baseVS targetVS sv : List FontVariation} {st : LoopState}
    (hin : InBounds baseVS targetVS sv st) (hc : loopCond baseVS targetVS sv st = false) :
    st.baseIdx = baseVS.length ∧ st.targetIdx = targetVS.length ∧ st.styleIdx = sv.length := by
  unfold loopCond at hc
  simp only [decide_eq_false_iff_not] at hc
  obtain ⟨h1, h2, h3⟩ := hin
  omega

theorem loopIter_add (fvar : FVarTable) (baseVS targetVS sv : List FontVariation)
    (targetStyle : FontStyle) :
    ∀ (k : Nat) (st stk : LoopState),
      loopIter fvar baseVS targetVS sv targetStyle k st = some stk →
      loopIter fvar baseVS targetVS sv targetStyle (k + 1) st
        = loopBody fvar baseVS targetVS sv targetStyle stk := by
  intro k
  induction k with
  | zero =>
    intro st stk h
    obtain rfl := Option.some.inj h
    simp only [loopIter]
    cases loopBody fvar baseVS targetVS sv targetStyle st <;> rfl
  | succ k ih =>
    intro st stk h
    simp only [loopIter] at h
    cases hb : loopBody fvar baseVS targetVS sv targetStyle st with
    | none => rw [hb] at h; cases h
    | some st1 =>
      rw [hb, Option.some_bind] at h
      have := ih st1 stk h
      rw [← this]
      conv_lhs => rw [loopIter]
      rw [hb, Option.some_bind]

theorem pick_isSome (baseVS targetVS sv : List FontVariation) (st : LoopState) :
    (pick baseVS targetVS sv st).isSome
      = (valueAt ((valueSource baseVS targetVS sv st).sequence baseVS targetVS sv)
          ((valueSource baseVS targetVS sv st).cursor st)).isSome := by
  unfold pick valueSource
  simp only []
  split_ifs <;> simp [ValueSource.sequence, ValueSource.cursor]

theorem lt_length_of_valueAt_isSome {vs : List FontVariation} {i : Nat}
    (h : (valueAt vs i).isSome = true) : i < vs.length := by
  unfold valueAt at h
  by_contra hn
  rw [List.get?_eq_none.2 (by omega)] at h
  cases h

theorem read_in_bounds {baseVS targetVS sv : List FontVariation} (hB : NoSentinel baseVS)
    (hT : NoSentinel targetVS) (hS : NoSentinel sv) {st : LoopState}
    (hc : loopCond baseVS targetVS sv st = true) :
    (valueSource baseVS targetVS sv st).cursor st
        < ((valueSource baseVS targetVS sv st).sequence baseVS targetVS sv).length ∧
      (pick baseVS targetVS sv st).isSome = true := by
  obtain ⟨st', hb, _⟩ := loopBody_step (fun _ => none) ⟨0, Slant.UPRIGHT⟩ hB hT hS hc
  have hp : (pick baseVS targetVS sv st).isSome = true := by
    unfold loopBody at hb
    cases hpk : pick baseVS targetVS sv st with
    | none => rw [hpk] at hb; cases hb
    | some p => rfl
  refine ⟨lt_length_of_valueAt_isSome ?_, hp⟩
  rw [← pick_isSome]
  exact hp

theorem styleVars_length_le_two (fvar : FVarTable) (targetStyle : FontStyle) :
    (styleVars fvar targetStyle).length ≤ 2 := by
  unfold styleVars
  split_ifs <;> simp

theorem remaining_initState (baseVS targetVS sv : List FontVariation) :
    remaining baseVS targetVS sv initState = baseVS.length + targetVS.length + sv.length := by
  simp [remaining, initState]

theorem inBounds_initState (baseVS targetVS sv : List FontVariation) :
    InBounds baseVS targetVS sv initState := by
  simp [InBounds, initState]

/-- C17 (termination of the merge loop): when all tags of base and target are below the sentinel,
every iteration entered with the loop condition true completes, moves no cursor backwards and
advances by one at least one cursor that was still inside its sequence; the loop therefore runs
some `n ≤ |base| + |target| + |style-implied|` iterations, the condition holding before each of
them and failing after the last, all three cursors end at the end of their sequences, and `merge`
returns a result. -/
theorem C17_merge_loop_terminates (fvar : FVarTable) (baseVS targetVS : VariationSettings)
    (baseStyle targetStyle : FontStyle) (hB : NoSentinel baseVS) (hT : NoSentinel targetVS) :
    (∀ st, loopCond baseVS targetVS (styleVars fvar targetStyle) st = true →
      ∃ st', loopBody fvar baseVS targetVS (styleVars fvar targetStyle) targetStyle st = some st' ∧
        st.baseIdx ≤ st'.baseIdx ∧ st.targetIdx ≤ st'.targetIdx ∧ st.styleIdx ≤ st'.styleIdx ∧
        ((st'.baseIdx = st.baseIdx + 1 ∧ st.baseIdx < baseVS.length) ∨
          (st'.targetIdx = st.targetIdx + 1 ∧ st.targetIdx < targetVS.length) ∨
          (st'.styleIdx = st.styleIdx + 1 ∧
            st.styleIdx < (styleVars fvar targetStyle).length))) ∧
      (∃ n st', n ≤ baseVS.length + targetVS.length + (styleVars fvar targetStyle).length ∧
        loopIter fvar baseVS targetVS (styleVars fvar targetStyle) targetStyle n initState
          = some st' ∧
        (∀ k, k < n → ∃ stk,
          loopIter fvar baseVS targetVS (styleVars fvar targetStyle) targetStyle k initState
            = some stk ∧
          loopCond baseVS targetVS (styleVars fvar targetStyle) stk = true) ∧
        loopCond baseVS targetVS (styleVars fvar targetStyle) st' = false ∧
        st'.baseIdx = baseVS.length ∧ st'.targetIdx = targetVS.length ∧
        st'.styleIdx = (styleVars fvar targetStyle).length ∧
        mergeLoopResult fvar baseVS targetVS targetStyle = some st') ∧
      ∃ r, merge fvar baseVS targetVS baseStyle targetStyle = some r := by
  have hS : NoSentinel (styleVars fvar targetStyle) :=
    noSentinel_of_valid (validVS_styleVars fvar targetStyle)
  refine ⟨?_, ?_, merge_total fvar baseVS targetVS baseStyle targetStyle hB hT⟩
  · intro st hc
    obtain ⟨st', hb, h1, h2, h3, hadv, _⟩ := loopBody_step fvar targetStyle hB hT hS hc
    refine ⟨st', hb, by omega, by omega, by omega, ?_⟩
    omega
  · obtain ⟨n, st', hn, hiter, hc, hloop, hin, hk, _⟩ :=
      loop_trace fvar targetStyle hB hT hS (mergeFuel fvar baseVS targetVS targetStyle)
        initState (by rw [remaining_initState]; exact Nat.le_refl _)
        (inBounds_initState _ _ _)
    rw [remaining_initState] at hn
    obtain ⟨e1, e2, e3⟩ := cursors_at_end hin hc
    exact ⟨n, st', hn, hiter, hk, hc, e1, e2, e3, hloop⟩

/-- Witness of C17 on the sets of `testMerge_complex`: no tag is the sentinel, and the call
returns. -/
theorem C17_merge_loop_terminates_witness :
    NoSentinel vsWght650 ∧ NoSentinel vsABCD75Wght750 ∧
      ∃ r, merge fvarComplex vsWght650 vsABCD75Wght750 REGULAR ITALIC = some r :=
  ⟨by decide, by decide,
    (C17_merge_loop_terminates fvarComplex vsWght650 vsABCD75Wght750 REGULAR ITALIC
      (by decide) (by decide)).2.2⟩

/-- C18 (the output fits the working buffer): on every valid input the loop runs some `n`
iterations, after each of which the number of entries written to `adjustedVars` is within the
capacity reserved before the loop; the final count, which is the size of the returned variation
settings, is at most `|base| + |target| + 2`; and the capacity is 8 when
`|base| + |target| + 2 ≤ 8` and exactly `|base| + |target| + 2` otherwise. -/
theorem C18_output_fits_buffer (fvar : FVarTable) (baseVS targetVS : VariationSettings)
    (baseStyle targetStyle : FontStyle) (hB : ValidVS baseVS) (hT : ValidVS targetVS) :
    ∃ n st r,
      loopIter fvar baseVS targetVS (styleVars fvar targetStyle) targetStyle n initState
        = some st ∧
      mergeLoopResult fvar baseVS targetVS targetStyle = some st ∧
      merge fvar baseVS targetVS baseStyle targetStyle = some r ∧
      r.variationSettings.length = st.adjustedVars.length ∧
      st.adjustedVars.length ≤ baseVS.length + targetVS.length + 2 ∧
      baseVS.length + targetVS.length + 2 ≤ adjustedVarsCapacity baseVS targetVS ∧
      (∀ k, k ≤ n → ∃ stk,
        loopIter fvar baseVS targetVS (styleVars fvar targetStyle) targetStyle k initState
          = some stk ∧
        stk.adjustedVars.length ≤ adjustedVarsCapacity baseVS targetVS) ∧
      (baseVS.length + targetVS.length + 2 ≤ 8 → adjustedVarsCapacity baseVS targetVS = 8) ∧
      (8 < baseVS.length + targetVS.length + 2 →
        adjustedVarsCapacity baseVS targetVS = baseVS.length + targetVS.length + 2) := by
  have hS : NoSentinel (styleVars fvar targetStyle) :=
    noSentinel_of_valid (validVS_styleVars fvar targetStyle)
  have h2 := styleVars_length_le_two fvar targetStyle
  obtain ⟨n, st, hn, hiter, _, hloop, _, _, hk⟩ :=
    loop_trace fvar targetStyle (noSentinel_of_valid hB) (noSentinel_of_valid hT) hS
      (mergeFuel fvar baseVS targetVS targetStyle) initState
      (by rw [remaining_initState]; exact Nat.le_refl _) (inBounds_initState _ _ _)
  rw [remaining_initState] at hn
  obtain ⟨st0, hst0, hacc, _⟩ := mergeLoopResult_valid fvar baseVS targetVS targetStyle hB hT
  have hres : mergeLoopResult fvar baseVS targetVS targetStyle = some st := hloop
  obtain rfl : st0 = st := Option.some.inj (hst0.symm.trans hres)
  have hcap : baseVS.length + targetVS.length + 2 ≤ adjustedVarsCapacity baseVS targetVS := by
    unfold adjustedVarsCapacity FIXED_BUFFER_SIZE
    split_ifs <;> omega
  have hlen : ∀ k, k ≤ n → ∃ stk,
      loopIter fvar baseVS targetVS (styleVars fvar targetStyle) targetStyle k initState
        = some stk ∧ stk.adjustedVars.length ≤ baseVS.length + targetVS.length + 2 := by
    intro k hkn
    obtain ⟨stk, hs, hl⟩ := hk k hkn
    refine ⟨stk, hs, ?_⟩
    simp only [initState, List.length_nil] at hl
    omega
  refine ⟨n, st0, _, hiter, hres, merge_valid fvar baseVS targetVS baseStyle targetStyle hB hT,
    by simp only [hacc], ?_, hcap, ?_, ?_, ?_⟩
  · obtain ⟨stn, hs, hl⟩ := hlen n (Nat.le_refl _)
    rw [hiter] at hs
    obtain rfl := Option.some.inj hs
    exact hl
  · intro k hkn
    obtain ⟨stk, hs, hl⟩ := hlen k hkn
    exact ⟨stk, hs, by omega⟩
  · intro h
    unfold adjustedVarsCapacity FIXED_BUFFER_SIZE
    rw [if_neg (by omega)]
  · intro h
    unfold adjustedVarsCapacity FIXED_BUFFER_SIZE
    rw [if_pos (by omega)]

/-- Witness of C18 on `testMerge_complex`: three entries are written, the bound is
`1 + 2 + 2 = 5` and the fixed buffer of 8 slots is used. -/
theorem C18_output_fits_buffer_witness :
    ValidVS vsWght650 ∧ ValidVS vsABCD75Wght750 ∧
      adjustedVarsCapacity vsWght650 vsABCD75Wght750 = 8 ∧
      ∃ n st r,
        loopIter fvarComplex vsWght650 vsABCD75Wght750 (styleVars fvarComplex ITALIC) ITALIC n
          initState = some st ∧
        mergeLoopResult fvarComplex vsWght650 vsABCD75Wght750 ITALIC = some st ∧
        merge fvarComplex vsWght650 vsABCD75Wght750 REGULAR ITALIC = some r ∧
        r.variationSettings.length = st.adjustedVars.length ∧
        st.adjustedVars.length ≤ vsWght650.length + vsABCD75Wght750.length + 2 ∧
        vsWght650.length + vsABCD75Wght750.length + 2
          ≤ adjustedVarsCapacity vsWght650 vsABCD75Wght750 ∧
        (∀ k, k ≤ n → ∃ stk,
          loopIter fvarComplex vsWght650 vsABCD75Wght750 (styleVars fvarComplex ITALIC) ITALIC k
            initState = some stk ∧
          stk.adjustedVars.length ≤ adjustedVarsCapacity vsWght650 vsABCD75Wght750) ∧
        (vsWght650.length + vsABCD75Wght750.length + 2 ≤ 8 →
          adjustedVarsCapacity vsWght650 vsABCD75Wght750 = 8) ∧
        (8 < vsWght650.length + vsABCD75Wght750.length + 2 →
          adjustedVarsCapacity vsWght650 vsABCD75Wght750
            = vsWght650.length + vsABCD75Wght750.length + 2) :=
  ⟨by decide, by decide, by decide,
    C18_output_fits_buffer fvarComplex vsWght650 vsABCD75Wght750 REGULAR ITALIC
      (by decide) (by decide)⟩

/-- C20 (cursor reads stay in bounds): when every tag of base and target differs from the
sentinel (in particular on strictly ascending sets with that property), then in every iteration
entered with the loop condition true the sequence whose `value` the taken branch reads has its
cursor strictly below its size, so the read succeeds; a tag is read only under the guard
`idx < size`, the sentinel standing in otherwise; and in the run of `merge` every iteration is
entered in such a state and completes. -/
theorem C20_cursor_reads_in_bounds (fvar : FVarTable) (baseVS targetVS : VariationSettings)
    (targetStyle : FontStyle) (hB : NoSentinel baseVS) (hT : NoSentinel targetVS) :
    (∀ st, loopCond baseVS targetVS (styleVars fvar targetStyle) st = true →
      (valueSource baseVS targetVS (styleVars fvar targetStyle) st).cursor st
        < ((valueSource baseVS targetVS (styleVars fvar targetStyle) st).sequence
            baseVS targetVS (styleVars fvar targetStyle)).length ∧
      (valueAt ((valueSource baseVS targetVS (styleVars fvar targetStyle) st).sequence
          baseVS targetVS (styleVars fvar targetStyle))
        ((valueSource baseVS targetVS (styleVars fvar targetStyle) st).cursor st)).isSome = true ∧
      (pick baseVS targetVS (styleVars fvar targetStyle) st).isSome = true) ∧
      (∀ (vs : List FontVariation) (idx : Nat), vs.length ≤ idx → tagAt vs idx = END) ∧
      (∃ n st', loopIter fvar baseVS targetVS (styleVars fvar targetStyle) targetStyle n initState
          = some st' ∧
        loopCond baseVS targetVS (styleVars fvar targetStyle) st' = false ∧
        mergeLoopResult fvar baseVS targetVS targetStyle = some st' ∧
        ∀ k, k < n → ∃ stk stk',
          loopIter fvar baseVS targetVS (styleVars fvar targetStyle) targetStyle k initState
            = some stk ∧
          loopCond baseVS targetVS (styleVars fvar targetStyle) stk = true ∧
          loopBody fvar baseVS targetVS (styleVars fvar targetStyle) targetStyle stk
            = some stk') := by
  have hS : NoSentinel (styleVars fvar targetStyle) :=
    noSentinel_of_valid (validVS_styleVars fvar targetStyle)
  refine ⟨?_, ?_, ?_⟩
  · intro st hc
    obtain ⟨h1, h2⟩ := read_in_bounds hB hT hS hc
    refine ⟨h1, ?_, h2⟩
    rw [← pick_isSome]
    exact h2
  · intro vs idx h
    unfold tagAt
    rw [dif_neg (by omega)]
  · obtain ⟨n, st', _, hiter, hc, hloop, _, hk, _⟩ :=
      loop_trace fvar targetStyle hB hT hS (mergeFuel fvar baseVS targetVS targetStyle)
        initState (by rw [remaining_initState]; exact Nat.le_refl _)
        (inBounds_initState _ _ _)
    refine ⟨n, st', hiter, hc, hloop, ?_⟩
    intro k hkn
    obtain ⟨stk, hs, hck⟩ := hk k hkn
    obtain ⟨stk', hb, _⟩ := loopBody_step fvar targetStyle hB hT hS hck
    exact ⟨stk, stk', hs, hck, hb⟩

/-- Witness of C20 at the first iteration of `testMerge_complex`: the branch reads the target's
value (`'ABCD'` is the smallest tag), cursor 0 of 2. -/
theorem C20_cursor_reads_in_bounds_witness :
    NoSentinel vsWght650 ∧ NoSentinel vsABCD75Wght750 ∧
      valueSource vsWght650 vsABCD75Wght750 (styleVars fvarComplex ITALIC) initState
        = ValueSource.target ∧
      (pick vsWght650 vsABCD75Wght750 (styleVars fvarComplex ITALIC) initState).isSome = true :=
  ⟨by decide, by decide, by decide,
    ((C20_cursor_reads_in_bounds fvarComplex vsWght650 vsABCD75Wght750 ITALIC
      (by decide) (by decide)).1 initState (by decide)).2.2⟩

/-! ## `Range` -/

theorem two_pow_32 : (2 : Nat) ^ 32 = 4294967296 := by norm_num

/-- C21 (`Range::split` partitions the range): for every range `r = [s, e)` of 32-bit positions
with `s ≤ pos ≤ e`, `split(pos)` returns `(a, b)` with `a = [s, pos)` and `b = [pos, e)`; the
lengths of `a` and `b` add up to the length of `r`, also in unsigned 32-bit arithmetic; `r`
contains both `a` and `b`; and `r` contains a position `p` if and only if exactly one of `a` and
`b` contains `p`. -/
theorem C21_range_split_partitions (r : Range) (pos : Nat) (hs : r.mStart ≤ pos)
    (he : pos ≤ r.mEnd) (h32 : r.mEnd < 2 ^ 32) :
    (r.split pos).1 = ⟨r.getStart, pos⟩ ∧ (r.split pos).2 = ⟨pos, r.getEnd⟩ ∧
      (r.split pos).1.getLength + (r.split pos).2.getLength = r.getLength ∧
      ((r.split pos).1.getLength + (r.split pos).2.getLength) % 2 ^ 32 = r.getLength ∧
      r.containsRange (r.split pos).1 = true ∧ r.containsRange (r.split pos).2 = true ∧
      ∀ p, (r.contains p = true ↔
        (((r.split pos).1.contains p = true ∧ (r.split pos).2.contains p = false) ∨
          ((r.split pos).1.contains p = false ∧ (r.split pos).2.contains p = true))) := by
  rw [two_pow_32] at h32
  have hlen : (r.split pos).1.getLength + (r.split pos).2.getLength = r.getLength := by
    simp only [Range.split, Range.getLength, two_pow_32]
    omega
  refine ⟨rfl, rfl, hlen, ?_, ?_, ?_, ?_⟩
  · rw [hlen]
    simp only [Range.getLength, two_pow_32]
    omega
  · simp only [Range.containsRange, Range.split, Bool.and_eq_true, decide_eq_true_eq]
    omega
  · simp only [Range.containsRange, Range.split, Bool.and_eq_true, decide_eq_true_eq]
    omega
  · intro p
    simp only [Range.contains, Range.split, Bool.and_eq_true, decide_eq_true_eq,
      Bool.and_eq_false_imp, decide_eq_false_iff_not]
    omega

/-- Witness of C21: `Range(2, 9).split(5)` is `([2, 5), [5, 9))`, of lengths 3 and 4. -/
theorem C21_range_split_partitions_witness :
    Range.split ⟨2, 9⟩ 5 = (⟨2, 5⟩, ⟨5, 9⟩) ∧
      Range.getLength ⟨2, 5⟩ = 3 ∧ Range.getLength ⟨5, 9⟩ = 4 ∧ Range.getLength ⟨2, 9⟩ = 7 ∧
      (Range.split ⟨2, 9⟩ 5).1.getLength + (Range.split ⟨2, 9⟩ 5).2.getLength
        = Range.getLength ⟨2, 9⟩ :=
  ⟨by decide, by decide, by decide, by decide,
    (C21_range_split_partitions ⟨2, 9⟩ 5 (by decide) (by decide) (by decide)).2.2.1⟩

/-- C22 (`Range` offset conversions are mutually inverse): for every range `r` and value `p`, all
32-bit, `r.toGlobalOffset(r.toRangeOffset(p)) = p` and `r.toRangeOffset(r.toGlobalOffset(p)) = p`
under unsigned 32-bit wraparound; when `start ≤ end`, `r.contains(p)` holds if and only if
`r.toRangeOffset(p) < r.getLength()`; and `r.isEmpty()` is equivalent to `r.getLength() = 0`. -/
theorem C22_range_offset_conversions (r : Range) (p : Nat) (hS : r.mStart < 2 ^ 32)
    (hE : r.mEnd < 2 ^ 32) (hp : p < 2 ^ 32) :
    r.toGlobalOffset (r.toRangeOffset p) = p ∧ r.toRangeOffset (r.toGlobalOffset p) = p ∧
      (r.mStart ≤ r.mEnd → (r.contains p = true ↔ r.toRangeOffset p < r.getLength)) ∧
      (r.isEmpty = true ↔ r.getLength = 0) := by
  rw [two_pow_32] at hS hE hp
  refine ⟨?_, ?_, ?_, ?_⟩
  · simp only [Range.toGlobalOffset, Range.toRangeOffset, two_pow_32]
    omega
  · simp only [Range.toGlobalOffset, Range.toRangeOffset, two_pow_32]
    omega
  · intro hle
    simp only [Range.contains, Range.toRangeOffset, Range.getLength, two_pow_32,
      Bool.and_eq_true, decide_eq_true_eq]
    omega
  · simp only [Range.isEmpty, Range.getLength, two_pow_32, decide_eq_true_eq]
    omega

/-- Witness of C22: for `Range(3, 10)` and `p = 1`, below the start, the range offset wraps to
`2 ^ 32 - 2` and converts back to 1; `p = 4` has range offset 1. -/
theorem C22_range_offset_conversions_witness :
    Range.toRangeOffset ⟨3, 10⟩ 1 = 4294967294 ∧
      Range.toGlobalOffset ⟨3, 10⟩ 4294967294 = 1 ∧
      Range.toRangeOffset ⟨3, 10⟩ 4 = 1 ∧
      Range.toGlobalOffset ⟨3, 10⟩ (Range.toRangeOffset ⟨3, 10⟩ 1) = 1 :=
  ⟨by decide, by decide, by decide,
    (C22_range_offset_conversions ⟨3, 10⟩ 1 (by decide) (by decide) (by decide)).1⟩

end minikin
